import Mathlib

/-!
Verification of the batch cell-processing pipeline of the Excel AI Assistant
(`app/ui/components/batch_processor.py` and `app/services/gemini_api_manager.py`).

The scheduler coroutine `_process_batches_async` is embedded as a pure function
producing the ordered trace of actions it performs: the progress/completion
events it posts to the UI thread (via `root.after(0, ...)`, which preserves
posting order) and the suspension points (`await`) at which `asyncio` can
interrupt it.  The `processing_cancelled` flag is only ever set (by
`cancel_processing`) and reset at the start of `process_batches`, so within one
run its reads form a monotone boolean sequence; we model it by an optional
threshold `cancel : Option Nat`: the k-th read of the flag (reads numbered from
0 in execution order) returns true iff the threshold is `some t` with `t ≤ k`.
`asyncio.CancelledError` (raised by `current_task.cancel()` at a suspension
point) and any other exception reaching the coroutine's `try` block are modelled
by an optional fault `(k, status)`: execution is truncated at the k-th
suspension point and the corresponding `except` handler runs, emitting one
progress event and the completion event with the state captured there.
-/

/-- A cell submitted for processing: the `'row'`, `'col'`, `'content'` keys of
the cell dictionaries consumed by `BatchProcessor.process_batches`. -/
structure Cell where
  row : Nat
  col : Nat
  content : String
  deriving DecidableEq, Repr

/-- The `(success, result, error)` tuple returned by a provider's
`process_single_cell` and by `_process_single_cell_async`. -/
abbrev CellOutcome := Bool × Option String × Option String

/-- The per-cell result dictionary built at lines 115-121 of
`batch_processor.py`. -/
structure CellResult where
  row : Nat
  col : Nat
  success : Bool
  result : Option String
  error : Option String
  deriving DecidableEq, Repr

/-- Builds the `cell_result` dictionary from a cell and the processor's
outcome for it. -/
def mkCellResult (proc : Cell → CellOutcome) (c : Cell) : CellResult :=
  ⟨c.row, c.col, (proc c).1, (proc c).2.1, (proc c).2.2⟩

/-- The mutable local state of `_process_batches_async`: the counters
initialized at lines 86-89, plus the number of reads of
`self.processing_cancelled` performed so far (used to address the monotone
flag model). -/
@[ext]
structure RunSt where
  processed : Nat
  success_count : Nat
  error_count : Nat
  all_results : List CellResult
  checks : Nat
  deriving DecidableEq, Repr

/-- The status strings passed to the progress callback, in structured form;
`statusText` renders each constructor to the exact f-string built by the
source. -/
inductive Status where
  | batchStart (batchIdx numBatches : Nat)
  | cellDone (batchIdx numBatches current batchLen : Nat)
  | batchDone (batchIdx numBatches : Nat)
  | finished
  | cancelled
  | faulted (msg : String)
  deriving DecidableEq, Repr

/-- The exact status string the source builds for each structured status
(`batch_processor.py` lines 100, 144, 151, 159-160, 165, 224). -/
def statusText : Status → String
  | .batchStart i n => "Processing batch " ++ toString (i + 1) ++ " of " ++ toString n ++ "..."
  | .cellDone i n cur len =>
      "Processing batch " ++ toString (i + 1) ++ " of " ++ toString n ++ ": " ++
        toString cur ++ "/" ++ toString len ++ " cells"
  | .batchDone i n => "Completed batch " ++ toString (i + 1) ++ " of " ++ toString n
  | .finished => "Processing completed"
  | .cancelled => "Processing cancelled"
  | .faulted msg => "Error: " ++ msg

/-- An event delivered to the caller: a progress-callback invocation
`(processed, success_count, error_count, total, status)` or the
completion-callback invocation `(results, success_count, error_count)`. -/
inductive Event where
  | progress (processed success_count error_count total : Nat) (status : Status)
  | complete (results : List CellResult) (success_count error_count : Nat)
  deriving DecidableEq, Repr

/-- The three suspension points of the coroutine: the awaited
`_process_single_cell_async` call (line 110), the inter-cell
`asyncio.sleep(0.2)` (line 138) and the inter-batch `asyncio.sleep(0.5)`
(line 148). -/
inductive AwaitKind where
  | procCall
  | cellDelay
  | batchDelay
  deriving DecidableEq, Repr

/-- One step of the coroutine's observable behaviour: posting an event to the
UI thread, or suspending at an await point (recording the local state visible
to the `except` handlers should the task be interrupted there). -/
inductive Act where
  | emit (e : Event)
  | yieldAt (kind : AwaitKind) (st : RunSt)
  deriving DecidableEq, Repr

/-- The k-th read of `processing_cancelled` during a run: true iff a
cancellation became visible at or before read number k. -/
def readFlag (cancel : Option Nat) (k : Nat) : Bool :=
  match cancel with
  | none => false
  | some t => decide (t ≤ k)

/-- The batch split of line 93,
`[cells[i:i + batch_size] for i in range(0, len(cells), batch_size)]`.
For `bs = 0` Python's `range` raises `ValueError`; the claims only concern
`bs ≥ 1`, where the comprehension is exactly consecutive take/drop chunking. -/
def chunksFuel (bs : Nat) : Nat → List Cell → List (List Cell)
  | _, [] => []
  | 0, _ :: _ => []
  | fuel + 1, x :: xs =>
    if bs = 0 then []
    else (x :: xs).take bs :: chunksFuel bs fuel ((x :: xs).drop bs)

def chunks (bs : Nat) (l : List Cell) : List (List Cell) :=
  chunksFuel bs l.length l

/-- Number of successful outcomes among a list of cells. -/
def countT (proc : Cell → CellOutcome) (l : List Cell) : Nat :=
  l.countP fun c => (proc c).1

/-- Number of failed outcomes among a list of cells. -/
def countF (proc : Cell → CellOutcome) (l : List Cell) : Nat :=
  l.countP fun c => !(proc c).1

/-- The inner loop of lines 105-138: for each cell of the batch, check the
cancellation flag (breaking out of the batch when set), await the processor,
record the `cell_result`, bump the counters, post the per-cell progress event
and sleep.  Returns the action trace, the `batch_results` list and the updated
state. -/
def cellLoop (proc : Cell → CellOutcome) (cancel : Option Nat)
    (total bIdx nB bLen : Nat) :
    List Cell → Nat → RunSt → List Act × List CellResult × RunSt
  | [], _, st => ([], [], st)
  | c :: cs, idx, st =>
    if readFlag cancel st.checks then ([], [], { st with checks := st.checks + 1 })
    else
      let st1 := { st with checks := st.checks + 1 }
      let o := proc c
      let cr : CellResult := ⟨c.row, c.col, o.1, o.2.1, o.2.2⟩
      let st2 : RunSt :=
        { st1 with
          processed := st1.processed + 1
          success_count := st1.success_count + (if o.1 then 1 else 0)
          error_count := st1.error_count + (if o.1 then 0 else 1) }
      let ev := Event.progress st2.processed st2.success_count st2.error_count total
        (Status.cellDone bIdx nB (idx + 1) bLen)
      let r := cellLoop proc cancel total bIdx nB bLen cs (idx + 1) st2
      (Act.yieldAt .procCall st1 :: Act.emit ev :: Act.yieldAt .cellDelay st2 :: r.1,
       cr :: r.2.1, r.2.2)

/-- The outer loop of lines 95-148: for each batch, check the cancellation
flag (breaking when set), post the batch-start progress event, run the inner
loop, extend `all_results` with the batch's results, post the batch-completed
progress event and sleep before the next batch. -/
def batchLoop (proc : Cell → CellOutcome) (cancel : Option Nat) (total nB : Nat) :
    List (List Cell) → Nat → RunSt → List Act × RunSt
  | [], _, st => ([], st)
  | b :: rest, bIdx, st =>
    if readFlag cancel st.checks then ([], { st with checks := st.checks + 1 })
    else
      let st1 := { st with checks := st.checks + 1 }
      let ev1 := Event.progress st1.processed st1.success_count st1.error_count total
        (Status.batchStart bIdx nB)
      let r := cellLoop proc cancel total bIdx nB b.length b 0 st1
      let st2 := r.2.2
      let st3 := { st2 with all_results := st2.all_results ++ r.2.1 }
      let ev2 := Event.progress st3.processed st3.success_count st3.error_count total
        (Status.batchDone bIdx nB)
      let r2 := batchLoop proc cancel total nB rest (bIdx + 1) st3
      (Act.emit ev1 :: (r.1 ++ Act.emit ev2 :: Act.yieldAt .batchDelay st3 :: r2.1),
       r2.2)

/-- The whole `try` block of `_process_batches_async` (lines 91-155): split
into batches, run the batch loop from zeroed counters, read the flag once more
for the final status string, post the final progress event and the completion
event. -/
def tryBody (cells : List Cell) (bs : Nat) (proc : Cell → CellOutcome)
    (cancel : Option Nat) : List Act × RunSt :=
  let batches := chunks bs cells
  let r := batchLoop proc cancel cells.length batches.length batches 0 ⟨0, 0, 0, [], 0⟩
  let st := r.2
  let stat := if readFlag cancel st.checks then Status.cancelled else Status.finished
  (r.1 ++
    [Act.emit (Event.progress st.processed st.success_count st.error_count cells.length stat),
     Act.emit (Event.complete st.all_results st.success_count st.error_count)],
   { st with checks := st.checks + 1 })

/-- The events of an action trace, in order. -/
def eventsOf (acts : List Act) : List Event :=
  acts.filterMap fun a =>
    match a with
    | .emit e => some e
    | .yieldAt _ _ => none

/-- Truncates an action trace at its k-th suspension point, returning the
actions performed before it together with the state captured there, or `none`
when execution never reaches a k-th suspension point. -/
def truncAt : List Act → Nat → Option (List Act × RunSt)
  | [], _ => none
  | .emit e :: rest, k =>
    (truncAt rest k).map fun p => (.emit e :: p.1, p.2)
  | .yieldAt _ st :: _, 0 => some ([], st)
  | .yieldAt kind st :: rest, k + 1 =>
    (truncAt rest k).map fun p => (.yieldAt kind st :: p.1, p.2)

/-- The event trace of an uninterrupted run (the `try` block runs to its
end). -/
def runEvents (cells : List Cell) (bs : Nat) (proc : Cell → CellOutcome)
    (cancel : Option Nat) : List Event :=
  eventsOf (tryBody cells bs proc cancel).1

/-- The event trace of one call to `_process_batches_async`.  `fault = some
(k, stat)` interrupts the `try` block at its k-th suspension point and runs
the corresponding handler (lines 157-167): `stat = .cancelled` for
`asyncio.CancelledError`, `stat = .faulted msg` for any other exception; when
execution finishes before a k-th suspension point exists, no fault occurs. -/
def run (cells : List Cell) (bs : Nat) (proc : Cell → CellOutcome)
    (cancel : Option Nat) (fault : Option (Nat × Status)) : List Event :=
  match fault with
  | none => runEvents cells bs proc cancel
  | some (k, stat) =>
    match truncAt (tryBody cells bs proc cancel).1 k with
    | none => runEvents cells bs proc cancel
    | some (pre, st) =>
      eventsOf pre ++
        [Event.progress st.processed st.success_count st.error_count cells.length stat,
         Event.complete st.all_results st.success_count st.error_count]

/-- Is an event the completion-callback invocation? -/
def isCompleteEv : Event → Bool
  | .complete _ _ _ => true
  | _ => false

/-- Is an event a "Processing batch i of n..." batch-start progress event? -/
def isBatchStartEv : Event → Bool
  | .progress _ _ _ _ (.batchStart _ _) => true
  | _ => false

/-- Is an event a "Completed batch i of n" progress event? -/
def isBatchDoneEv : Event → Bool
  | .progress _ _ _ _ (.batchDone _ _) => true
  | _ => false

/-- Is an action the inter-batch `asyncio.sleep(0.5)` suspension? -/
def isBatchDelayAct : Act → Bool
  | .yieldAt .batchDelay _ => true
  | _ => false

/-- A trace contains exactly one completion event and it is the last event. -/
def completesOnceLast (tr : List Event) : Bool :=
  (tr.countP isCompleteEv == 1) &&
    isCompleteEv (tr.getLastD (Event.progress 0 0 0 0 .finished))

/-- No cancellation becomes visible among the first m flag reads. -/
def noFlagBelow (cancel : Option Nat) (m : Nat) : Prop :=
  ∀ i, i < m → readFlag cancel i = false

/-- The run was cancelled early: a cancellation becomes visible at one of the
flag reads performed inside the batch/cell loops of a full run (one read per
batch plus one per cell). -/
def cancelledEarly (cancel : Option Nat) (cells : List Cell) (bs : Nat) : Bool :=
  match cancel with
  | none => false
  | some t => decide (t < (chunks bs cells).length + cells.length)

/-- The cancellation has been observed by the time m flag reads have
happened. -/
def cancelObservedBy (cancel : Option Nat) (m : Nat) : Bool :=
  match cancel with
  | none => false
  | some t => decide (t < m)

/-- The `processing_cancelled` / `current_task` attributes of a
`BatchProcessor` instance that are touched by `process_batches` and
`cancel_processing`. -/
structure ProcFlags where
  processing_cancelled : Bool
  deriving DecidableEq, Repr

/-- Models `cancel_processing` (lines 66-71): sets the cancellation flag (and
best-effort cancels the tracked task, which the run model reflects as a
`.cancelled` fault). -/
def cancel_processing (s : ProcFlags) : ProcFlags :=
  { s with processing_cancelled := true }

/-- The synchronous part of `process_batches` (line 49): resets the
cancellation flag to `False` before scheduling `_process_batches_async`. -/
def process_batches_reset (s : ProcFlags) : ProcFlags :=
  { s with processing_cancelled := false }

def finalEventOf (tr : List Event) : Event :=
  tr.getLastD (Event.progress 0 0 0 0 .finished)


/-- The property asserted by the spec for one run: the completion event's
result list is exactly the processed prefix of the input cells (counters
s + e equal the number of processed cells at completion). -/
def resultsMatchProcessed (cells : List Cell) (bs : Nat) (proc : Cell → CellOutcome)
    (cancel : Option Nat) (fault : Option (Nat × Status)) : Bool :=
  match finalEventOf (run cells bs proc cancel fault) with
  | .complete r s e => decide (r = (cells.take (s + e)).map (mkCellResult proc))
  | _ => false

/-- The provider outcome tuple is well-shaped: exactly one of result/error is
set, according to the success flag. -/
def wellShaped : CellOutcome → Bool
  | (true, some _, none) => true
  | (false, none, some _) => true
  | _ => false

/-- A CellResult is well-shaped: exactly one of result/error is set, according
to the success flag. -/
def resultShaped (r : CellResult) : Bool :=
  match r.success, r.result, r.error with
  | true, some _, none => true
  | false, none, some _ => true
  | _, _, _ => false

/-- The property claimed by the spec for one run: the inter-batch delay never
runs once cancellation has been observed (every inter-batch sleep happens at a
point where no flag read has yet returned true). -/
def delaysSkippedWhenCancelled (cells : List Cell) (bs : Nat) (proc : Cell → CellOutcome)
    (cancel : Option Nat) : Bool :=
  (tryBody cells bs proc cancel).1.all fun a =>
    match a with
    | .yieldAt .batchDelay st => !(cancelObservedBy cancel st.checks)
    | _ => true

namespace GeminiAPIManager

/-- The rate-limiting attributes of `GeminiAPIManager`: `request_count` and
`request_start_time` (a `time.time()` timestamp, modelled as a rational). -/
structure RateState where
  request_count : Nat
  request_start_time : ℚ
  deriving DecidableEq, Repr

/-- Models `_check_rate_limit` (lines 383-393): reset count and window start and
allow when more than 60 s have passed since the window start, else allow iff
the count is under `max_requests_per_minute`.  No side effects on denial. -/
def check_rate_limit (maxRpm : Nat) (now : ℚ) (st : RateState) : Bool × RateState :=
  if 60 < now - st.request_start_time then (true, ⟨0, now⟩)
  else (decide (st.request_count < maxRpm), st)

/-- Models `_increment_request_count` (lines 373-381): reset the window if more than
60 s have passed, then increment the count. -/
def increment_request_count (now : ℚ) (st : RateState) : RateState :=
  if 60 < now - st.request_start_time then ⟨1, now⟩
  else ⟨st.request_count + 1, st.request_start_time⟩

/-- A response candidate: only its `finish_reason` attribute is inspected
(absent attribute modelled as `none`; `some 2` is the safety block). -/
structure Candidate where
  finish_reason : Option Nat
  deriving DecidableEq, Repr

instance : DecidableEq (Except String String) := fun a b =>
  match a, b with
  | .ok x, .ok y =>
    if h : x = y then isTrue (by rw [h]) else isFalse (by simp [h])
  | .error x, .error y =>
    if h : x = y then isTrue (by rw [h]) else isFalse (by simp [h])
  | .ok _, .error _ => isFalse (by simp)
  | .error _, .ok _ => isFalse (by simp)

/-- A `generate_content` response: its candidate list and the `response.text`
quick accessor, which either yields the text or raises `ValueError`
(modelled as `Except.error`). -/
structure ApiResponse where
  candidates : List Candidate
  text : Except String String
  deriving DecidableEq, Repr

/-- Outcome of the `client.generate_content` call: a response, a
`GoogleAPIError` (with its optional `code` attribute), or any other
exception. -/
inductive ApiCallResult where
  | ok (resp : ApiResponse)
  | googleError (code : Option Nat) (msg : String)
  | otherError (msg : String)
  deriving DecidableEq, Repr

/-- The environment one `process_single_cell` call runs in: whether
`self.client` is set on entry, what `initialize()` would return if attempted,
the clock values observed by the rate-limit check and the counter increment,
and what the API call would do. -/
structure ApiEnv where
  clientReady : Bool
  initOk : Bool
  checkTime : ℚ
  incTime : ℚ
  callResult : ApiCallResult
  deriving DecidableEq, Repr

/-- Error text for a `GoogleAPIError` by its `code` attribute
(lines 355-365). -/
def googleErrMsg (code : Option Nat) (msg : String) : String :=
  match code with
  | some 403 => "API key invalid or insufficient permissions"
  | some 429 => "Rate limit exceeded. Please try again later."
  | some 500 => "Server error. Please try again later."
  | _ => "Gemini API Error: " ++ msg

/-- Safety-block error text (lines 337 and 352). -/
def blockedMsg (model : String) : String :=
  "Response blocked by safety filters. The prompt may be flagged by " ++ model ++
    ". Try switching to an older model like gemini-1.5-flash or rephrasing your prompt."

/-- Models `process_single_cell` (lines 246-371): client and rate-limit guards, the
`generate_content` call, counter increment after the call returns, response
validation, safety-block handling and text extraction, with every failure
returned as `(False, None, errorText)`.  Returns the `(success, result,
error)` tuple, the updated rate state, and whether `generate_content` was
invoked. -/
def process_single_cell (maxRpm : Nat) (model : String) (env : ApiEnv) (st : RateState) :
    CellOutcome × RateState × Bool :=
  if env.clientReady = false ∧ env.initOk = false then
    ((false, none, some "API client not initialized"), st, false)
  else
    let c := check_rate_limit maxRpm env.checkTime st
    if c.1 = false then
      ((false, none, some "Rate limit exceeded. Please try again later."), c.2, false)
    else
      match env.callResult with
      | .googleError code msg => ((false, none, some (googleErrMsg code msg)), c.2, true)
      | .otherError msg => ((false, none, some ("Unexpected error: " ++ msg)), c.2, true)
      | .ok resp =>
        let st2 := increment_request_count env.incTime c.2
        match resp.candidates with
        | [] => ((false, none, some "Invalid response structure from API"), st2, true)
        | cand :: _ =>
          if cand.finish_reason = some 2 then
            ((false, none, some (blockedMsg model)), st2, true)
          else
            match resp.text with
            | .ok t =>
              if t.trim ≠ "" then ((true, some t.trim, none), st2, true)
              else ((false, none, some "Empty response from API"), st2, true)
            | .error e =>
              if cand.finish_reason = some 2 then
                ((false, none, some (blockedMsg model)), st2, true)
              else ((false, none, some ("Invalid response format: " ++ e)), st2, true)

end GeminiAPIManager

/-- Models `_process_single_cell_async` (batch_processor.py lines 169-194): await the
provider's `process_single_cell` in an executor, returning its tuple, and
downgrade any exception raised on the way to `(False, None, str(e))`. -/
def process_single_cell_async (inner : Except String CellOutcome) : CellOutcome :=
  match inner with
  | .ok o => o
  | .error e => (false, none, some e)


theorem countT_cons (proc : Cell → CellOutcome) (c : Cell) (l : List Cell) :
    countT proc (c :: l) = countT proc l + (if (proc c).1 then 1 else 0) := by
  simp [countT, List.countP_cons]

theorem countF_cons (proc : Cell → CellOutcome) (c : Cell) (l : List Cell) :
    countF proc (c :: l) = countF proc l + (if (proc c).1 then 0 else 1) := by
  simp only [countF, List.countP_cons]
  cases h : (proc c).1 <;> simp [h]

theorem countT_add_countF (proc : Cell → CellOutcome) (l : List Cell) :
    countT proc l + countF proc l = l.length := by
  induction l with
  | nil => simp [countT, countF]
  | cons c l ih =>
    rw [countT_cons, countF_cons]
    cases h : (proc c).1 <;> simp <;> omega

theorem cellLoop_spec (proc : Cell → CellOutcome) (cancel : Option Nat)
    (total bIdx nB bLen : Nat) :
    ∀ (cs : List Cell) (idx : Nat) (st : RunSt),
    ∃ k, k ≤ cs.length ∧
      (cellLoop proc cancel total bIdx nB bLen cs idx st).2.1
        = (cs.take k).map (mkCellResult proc) ∧
      (cellLoop proc cancel total bIdx nB bLen cs idx st).2.2 =
        { processed := st.processed + k
          success_count := st.success_count + countT proc (cs.take k)
          error_count := st.error_count + countF proc (cs.take k)
          all_results := st.all_results
          checks := st.checks + k + (if k < cs.length then 1 else 0) } ∧
      (∀ i, i < k → readFlag cancel (st.checks + i) = false) ∧
      (k < cs.length → readFlag cancel (st.checks + k) = true) := by
  intro cs
  induction cs with
  | nil =>
    intro idx st
    refine ⟨0, by simp, by simp [cellLoop], ?_, by simp, by simp⟩
    cases st
    simp [cellLoop, countT, countF]
  | cons c cs ih =>
    intro idx st
    by_cases hf : readFlag cancel st.checks
    · refine ⟨0, by simp, ?_, ?_, by simp, ?_⟩
      · simp [cellLoop, hf]
      · cases st
        simp [cellLoop, hf, countT, countF]
      · intro _
        simpa using hf
    · obtain ⟨k, hk, hres, hst, hflags, hftrue⟩ := ih (idx + 1)
        { st with
          processed := st.processed + 1
          success_count := st.success_count + (if (proc c).1 then 1 else 0)
          error_count := st.error_count + (if (proc c).1 then 0 else 1)
          checks := st.checks + 1 }
      refine ⟨k + 1, by simpa using hk, ?_, ?_, ?_, ?_⟩
      · simp only [cellLoop, hf, if_neg, Bool.false_eq_true, not_false_iff]
        simp only [List.take_succ_cons, List.map_cons]
        rw [hres]
        rfl
      · simp only [cellLoop, hf, if_neg, Bool.false_eq_true, not_false_iff]
        rw [hst]
        simp only [List.take_succ_cons, countT_cons, countF_cons]
        have hlt : (k + 1 < cs.length + 1) = (k < cs.length) := by
          simp
        refine RunSt.ext ?_ ?_ ?_ ?_ ?_ <;> simp [countT_cons, countF_cons] <;> omega
      · intro i hi
        cases i with
        | zero => simpa using hf
        | succ j =>
          have := hflags j (by omega)
          simpa [Nat.add_assoc, Nat.add_comm 1 j] using this
      · intro hlt
        have := hftrue (by simpa using hlt)
        simpa [Nat.add_assoc, Nat.add_comm 1 k] using this

theorem batchLoop_spec (proc : Cell → CellOutcome) (cancel : Option Nat) (total nB : Nat) :
    ∀ (batches : List (List Cell)) (bIdx : Nat) (st : RunSt),
    ∃ d, d ≤ batches.flatten.length ∧
      (batchLoop proc cancel total nB batches bIdx st).2.processed = st.processed + d ∧
      (batchLoop proc cancel total nB batches bIdx st).2.success_count
        = st.success_count + countT proc (batches.flatten.take d) ∧
      (batchLoop proc cancel total nB batches bIdx st).2.error_count
        = st.error_count + countF proc (batches.flatten.take d) ∧
      (batchLoop proc cancel total nB batches bIdx st).2.all_results
        = st.all_results ++ (batches.flatten.take d).map (mkCellResult proc) ∧
      st.checks ≤ (batchLoop proc cancel total nB batches bIdx st).2.checks ∧
      (noFlagBelow cancel (st.checks + batches.length + batches.flatten.length)
        → d = batches.flatten.length) ∧
      (∀ t, cancel = some t → t ≤ st.checks → d = 0) ∧
      (∀ t, cancel = some t → st.checks ≤ t
        → t < st.checks + batches.length + batches.flatten.length
        → (∀ b ∈ batches, b ≠ []) → d < batches.flatten.length) := by
  intro batches
  induction batches with
  | nil =>
    intro bIdx st
    refine ⟨0, by simp, by simp [batchLoop], by simp [batchLoop, countT],
      by simp [batchLoop, countF], by simp [batchLoop], by simp [batchLoop], by simp, ?_, ?_⟩
    · intro t _ _
      rfl
    · intro t _ _ hlt _
      simp at hlt
      omega
  | cons b rest ih =>
    intro bIdx st
    by_cases hf : readFlag cancel st.checks
    · refine ⟨0, by simp, ?_, ?_, ?_, ?_, ?_, ?_, ?_, ?_⟩
      · simp [batchLoop, hf]
      · simp [batchLoop, hf, countT]
      · simp [batchLoop, hf, countF]
      · simp [batchLoop, hf]
      · simp [batchLoop, hf]
      · intro hnf
        exfalso
        have := hnf st.checks (by simp; omega)
        rw [this] at hf
        exact Bool.false_ne_true hf
      · intro t _ _
        rfl
      · intro t ht _ _ hne
        have hb : b ≠ [] := hne b (by simp)
        have : 0 < b.length := List.length_pos.mpr hb
        simp only [List.flatten_cons, List.length_append]
        omega
    · -- flag false at the batch-top check
      obtain ⟨k, hk, hres, hst, hflags, hftrue⟩ :=
        cellLoop_spec proc cancel total bIdx nB b.length b 0 { st with checks := st.checks + 1 }
      dsimp only at hst hflags hftrue
      obtain ⟨d2, hd2, hP, hS, hE, hA, hC, hFull, hZero, hEarly⟩ :=
        ih (bIdx + 1)
          { processed := st.processed + k
            success_count := st.success_count + countT proc (b.take k)
            error_count := st.error_count + countF proc (b.take k)
            all_results := st.all_results ++ (b.take k).map (mkCellResult proc)
            checks := st.checks + 1 + k + (if k < b.length then 1 else 0) }
      dsimp only at hP hS hE hA hC hFull hZero hEarly
      have hd2z : k < b.length → d2 = 0 := by
        intro hklt
        obtain ⟨t, hcancel, htle⟩ : ∃ t, cancel = some t ∧ t ≤ st.checks + 1 + k := by
          have := hftrue hklt
          simp only [readFlag] at this
          cases cancel with
          | none => exact absurd this (by simp)
          | some t =>
            refine ⟨t, rfl, ?_⟩
            simpa using this
        exact hZero t hcancel (by simp [hklt]; omega)
      have hbl : (batchLoop proc cancel total nB (b :: rest) bIdx st).2
          = (batchLoop proc cancel total nB rest (bIdx + 1)
              { processed := st.processed + k
                success_count := st.success_count + countT proc (b.take k)
                error_count := st.error_count + countF proc (b.take k)
                all_results := st.all_results ++ (b.take k).map (mkCellResult proc)
                checks := st.checks + 1 + k + (if k < b.length then 1 else 0) }).2 := by
        simp only [batchLoop, hf, Bool.false_eq_true, if_false]
        rw [hres, hst]
      refine ⟨k + d2, ?_, ?_, ?_, ?_, ?_, ?_, ?_, ?_, ?_⟩
      · simp only [List.flatten_cons, List.length_append]
        omega
      · rw [hbl, hP]
        omega
      · rw [hbl, hS]
        by_cases hkb : k < b.length
        · have h0 := hd2z hkb
          subst h0
          simp only [List.take_zero, countT, List.countP_nil, Nat.add_zero, List.flatten_cons]
          rw [List.take_append_of_le_length (le_of_lt hkb)]
        · have hkeq : k = b.length := by omega
          subst hkeq
          rw [List.take_length, List.flatten_cons, List.take_append]
          simp only [countT, List.countP_append]
          omega
      · rw [hbl, hE]
        by_cases hkb : k < b.length
        · have h0 := hd2z hkb
          subst h0
          simp only [List.take_zero, countF, List.countP_nil, Nat.add_zero, List.flatten_cons]
          rw [List.take_append_of_le_length (le_of_lt hkb)]
        · have hkeq : k = b.length := by omega
          subst hkeq
          rw [List.take_length, List.flatten_cons, List.take_append]
          simp only [countF, List.countP_append]
          omega
      · rw [hbl, hA]
        by_cases hkb : k < b.length
        · have h0 := hd2z hkb
          subst h0
          simp only [List.take_zero, List.map_nil, List.append_nil, Nat.add_zero, List.flatten_cons]
          rw [List.take_append_of_le_length (le_of_lt hkb)]
        · have hkeq : k = b.length := by omega
          subst hkeq
          rw [List.take_length, List.flatten_cons, List.take_append, List.map_append,
            List.append_assoc]
      · rw [hbl]
        refine le_trans ?_ hC
        dsimp only
        omega
      · intro hnf
        have hkb : k = b.length := by
          by_contra hne
          have hklt : k < b.length := by omega
          have := hftrue hklt
          have hfalse := hnf (st.checks + 1 + k) (by
            simp only [List.flatten_cons, List.length_append, List.length_cons]
            omega)
          rw [hfalse] at this
          exact Bool.false_ne_true this
        subst hkb
        simp only [lt_self_iff_false, if_false] at hFull
        have hd2f : d2 = rest.flatten.length := by
          apply hFull
          intro i hi
          apply hnf
          simp only [List.flatten_cons, List.length_append, List.length_cons]
          omega
        simp only [List.flatten_cons, List.length_append]
        omega
      · intro t hc hle
        exfalso
        rw [hc] at hf
        simp only [readFlag, decide_eq_true_eq] at hf
        exact hf hle
      · intro t hc hge hlt hne
        by_cases hkb : k < b.length
        · have h0 := hd2z hkb
          have hb : b ≠ [] := hne b (by simp)
          have : 0 < b.length := List.length_pos.mpr hb
          simp only [List.flatten_cons, List.length_append]
          omega
        · have hkeq : k = b.length := by omega
          subst hkeq
          simp only [lt_self_iff_false, if_false] at hEarly
          have hge3 : st.checks + 1 + b.length ≤ t := by
            by_contra hlt3
            push_neg at hlt3
            have hgt : st.checks < t := by
              by_contra hle2
              push_neg at hle2
              rw [hc] at hf
              simp only [readFlag, decide_eq_true_eq] at hf
              exact hf hle2
            have hblt : t - (st.checks + 1) < b.length := by omega
            have := hflags (t - (st.checks + 1)) hblt
            simp only [readFlag, hc, decide_eq_false_iff_not] at this
            omega
          have hd2lt : d2 < rest.flatten.length := by
            apply hEarly t hc
            · omega
            · simp only [List.flatten_cons, List.length_append, List.length_cons] at hlt ⊢
              omega
            · intro b2 hb2
              exact hne b2 (by simp [hb2])
          simp only [List.flatten_cons, List.length_append]
          omega

theorem readFlag_mono (cancel : Option Nat) (i j : Nat) (hij : i ≤ j)
    (h : readFlag cancel i = true) : readFlag cancel j = true := by
  cases cancel with
  | none => simp [readFlag] at h
  | some t =>
    simp only [readFlag, decide_eq_true_eq] at h ⊢
    omega

theorem batchLoop_stop (proc : Cell → CellOutcome) (cancel : Option Nat) (total nB : Nat)
    (batches : List (List Cell)) (bIdx : Nat) (st : RunSt)
    (h : readFlag cancel st.checks = true) :
    (batchLoop proc cancel total nB batches bIdx st).1 = [] := by
  cases batches with
  | nil => rfl
  | cons b rest => simp [batchLoop, h]

theorem eventsOf_nil : eventsOf [] = [] := rfl

theorem eventsOf_emit (e : Event) (l : List Act) :
    eventsOf (Act.emit e :: l) = e :: eventsOf l := rfl

theorem eventsOf_yield (k : AwaitKind) (st : RunSt) (l : List Act) :
    eventsOf (Act.yieldAt k st :: l) = eventsOf l := rfl

theorem eventsOf_append (l l' : List Act) :
    eventsOf (l ++ l') = eventsOf l ++ eventsOf l' := by
  simp [eventsOf, List.filterMap_append]

/-- One unfolding of `cellLoop` when the flag read comes back false. -/
theorem cellLoop_cons_false (proc : Cell → CellOutcome) (cancel : Option Nat)
    (total bIdx nB bLen : Nat) (c : Cell) (cs : List Cell) (idx : Nat) (st : RunSt)
    (hf : ¬readFlag cancel st.checks = true) :
    cellLoop proc cancel total bIdx nB bLen (c :: cs) idx st =
      (Act.yieldAt .procCall { st with checks := st.checks + 1 } ::
        Act.emit (Event.progress (st.processed + 1)
          (st.success_count + (if (proc c).1 then 1 else 0))
          (st.error_count + (if (proc c).1 then 0 else 1)) total
          (Status.cellDone bIdx nB (idx + 1) bLen)) ::
        Act.yieldAt .cellDelay
          { processed := st.processed + 1
            success_count := st.success_count + (if (proc c).1 then 1 else 0)
            error_count := st.error_count + (if (proc c).1 then 0 else 1)
            all_results := st.all_results
            checks := st.checks + 1 } ::
        (cellLoop proc cancel total bIdx nB bLen cs (idx + 1)
          { processed := st.processed + 1
            success_count := st.success_count + (if (proc c).1 then 1 else 0)
            error_count := st.error_count + (if (proc c).1 then 0 else 1)
            all_results := st.all_results
            checks := st.checks + 1 }).1,
       ⟨c.row, c.col, (proc c).1, (proc c).2.1, (proc c).2.2⟩ ::
         (cellLoop proc cancel total bIdx nB bLen cs (idx + 1)
          { processed := st.processed + 1
            success_count := st.success_count + (if (proc c).1 then 1 else 0)
            error_count := st.error_count + (if (proc c).1 then 0 else 1)
            all_results := st.all_results
            checks := st.checks + 1 }).2.1,
       (cellLoop proc cancel total bIdx nB bLen cs (idx + 1)
          { processed := st.processed + 1
            success_count := st.success_count + (if (proc c).1 then 1 else 0)
            error_count := st.error_count + (if (proc c).1 then 0 else 1)
            all_results := st.all_results
            checks := st.checks + 1 }).2.2) := by
  simp only [cellLoop, hf, Bool.false_eq_true, if_false]

theorem cellLoop_events (proc : Cell → CellOutcome) (cancel : Option Nat)
    (total bIdx nB bLen : Nat) :
    ∀ (cs : List Cell) (idx : Nat) (st : RunSt),
    ∀ ev ∈ eventsOf (cellLoop proc cancel total bIdx nB bLen cs idx st).1,
    ∃ j cur, j < cs.length ∧
      ev = Event.progress (st.processed + (j + 1))
        (st.success_count + countT proc (cs.take (j + 1)))
        (st.error_count + countF proc (cs.take (j + 1))) total
        (Status.cellDone bIdx nB cur bLen) := by
  intro cs
  induction cs with
  | nil =>
    intro idx st ev hev
    simp [cellLoop, eventsOf] at hev
  | cons c cs ih =>
    intro idx st ev hev
    by_cases hf : readFlag cancel st.checks
    · simp [cellLoop, hf, eventsOf] at hev
    · rw [cellLoop_cons_false proc cancel total bIdx nB bLen c cs idx st hf] at hev
      rw [eventsOf_yield, eventsOf_emit, eventsOf_yield] at hev
      rcases List.mem_cons.mp hev with hev | hev
      · refine ⟨0, idx + 1, by simp, ?_⟩
        rw [hev]
        cases hpc : (proc c).1 <;> simp [countT, countF, List.countP_cons, hpc]
      · obtain ⟨j, cur, hj, hev2⟩ := ih (idx + 1)
          { processed := st.processed + 1
            success_count := st.success_count + (if (proc c).1 then 1 else 0)
            error_count := st.error_count + (if (proc c).1 then 0 else 1)
            all_results := st.all_results
            checks := st.checks + 1 } ev hev
        dsimp only at hev2
        refine ⟨j + 1, cur, by simpa using hj, ?_⟩
        rw [hev2]
        simp only [List.take_succ_cons, countT_cons, countF_cons]
        congr 1 <;> omega

theorem cellLoop_yields (proc : Cell → CellOutcome) (cancel : Option Nat)
    (total bIdx nB bLen : Nat) :
    ∀ (cs : List Cell) (idx : Nat) (st : RunSt),
    ∀ kind stA, Act.yieldAt kind stA ∈ (cellLoop proc cancel total bIdx nB bLen cs idx st).1 →
    (kind = .procCall ∨ kind = .cellDelay) ∧ ∃ j, j ≤ cs.length ∧
      stA.processed = st.processed + j ∧
      stA.success_count = st.success_count + countT proc (cs.take j) ∧
      stA.error_count = st.error_count + countF proc (cs.take j) ∧
      stA.all_results = st.all_results := by
  intro cs
  induction cs with
  | nil =>
    intro idx st kind stA h
    simp [cellLoop] at h
  | cons c cs ih =>
    intro idx st kind stA h
    by_cases hf : readFlag cancel st.checks
    · simp [cellLoop, hf] at h
    · rw [cellLoop_cons_false proc cancel total bIdx nB bLen c cs idx st hf] at h
      rcases List.mem_cons.mp h with h1 | h
      · obtain ⟨hkind, hstA⟩ := Act.yieldAt.inj h1
        subst hstA
        refine ⟨Or.inl hkind, 0, by simp, ?_, ?_, ?_, ?_⟩ <;> simp [countT, countF]
      rcases List.mem_cons.mp h with h1 | h
      · exact absurd h1 (by simp)
      rcases List.mem_cons.mp h with h1 | h
      · obtain ⟨hkind, hstA⟩ := Act.yieldAt.inj h1
        subst hstA
        refine ⟨Or.inr hkind, 1, by simp, ?_, ?_, ?_, ?_⟩ <;>
          cases hpc : (proc c).1 <;> simp [countT, countF, List.countP_cons, hpc]
      · obtain ⟨hk, j, hj, hP, hS, hE, hA⟩ := ih (idx + 1)
          { processed := st.processed + 1
            success_count := st.success_count + (if (proc c).1 then 1 else 0)
            error_count := st.error_count + (if (proc c).1 then 0 else 1)
            all_results := st.all_results
            checks := st.checks + 1 } kind stA h
        dsimp only at hP hS hE hA
        refine ⟨hk, j + 1, by simpa using hj, ?_, ?_, ?_, ?_⟩
        · rw [hP]; omega
        · rw [hS]
          simp only [List.take_succ_cons, countT_cons]
          omega
        · rw [hE]
          simp only [List.take_succ_cons, countF_cons]
          omega
        · rw [hA]

theorem take_length_of_le {j : Nat} {l : List Cell} (h : j ≤ l.length) :
    (l.take j).length = j := by
  simp [List.length_take, Nat.min_eq_left h]

theorem batchLoop_events (proc : Cell → CellOutcome) (cancel : Option Nat) (total nB : Nat) :
    ∀ (batches : List (List Cell)) (bIdx : Nat) (st : RunSt),
    st.processed = st.success_count + st.error_count →
    st.processed + batches.flatten.length ≤ total →
    ∀ ev ∈ eventsOf (batchLoop proc cancel total nB batches bIdx st).1,
    ∃ p s e stat, ev = Event.progress p s e total stat ∧ p = s + e ∧ p ≤ total := by
  intro batches
  induction batches with
  | nil =>
    intro bIdx st _ _ ev hev
    simp [batchLoop, eventsOf] at hev
  | cons b rest ih =>
    intro bIdx st hInv hBound ev hev
    by_cases hf : readFlag cancel st.checks
    · simp [batchLoop, hf, eventsOf] at hev
    · obtain ⟨k, hk, hres, hst, hflags, hftrue⟩ :=
        cellLoop_spec proc cancel total bIdx nB b.length b 0 { st with checks := st.checks + 1 }
      dsimp only at hst
      have hacts : (batchLoop proc cancel total nB (b :: rest) bIdx st).1 =
          Act.emit (Event.progress st.processed st.success_count st.error_count total
            (Status.batchStart bIdx nB)) ::
          ((cellLoop proc cancel total bIdx nB b.length b 0 { st with checks := st.checks + 1 }).1 ++
            Act.emit (Event.progress (st.processed + k) (st.success_count + countT proc (b.take k))
              (st.error_count + countF proc (b.take k)) total (Status.batchDone bIdx nB)) ::
            Act.yieldAt .batchDelay
              { processed := st.processed + k
                success_count := st.success_count + countT proc (b.take k)
                error_count := st.error_count + countF proc (b.take k)
                all_results := st.all_results ++ (b.take k).map (mkCellResult proc)
                checks := st.checks + 1 + k + (if k < b.length then 1 else 0) } ::
            (batchLoop proc cancel total nB rest (bIdx + 1)
              { processed := st.processed + k
                success_count := st.success_count + countT proc (b.take k)
                error_count := st.error_count + countF proc (b.take k)
                all_results := st.all_results ++ (b.take k).map (mkCellResult proc)
                checks := st.checks + 1 + k + (if k < b.length then 1 else 0) }).1) := by
        simp only [batchLoop, hf, Bool.false_eq_true, if_false]
        rw [hst, hres]
      rw [hacts, eventsOf_emit, eventsOf_append, eventsOf_emit, eventsOf_yield] at hev
      have hflen : (b :: rest).flatten.length = b.length + rest.flatten.length := by
        simp
      rcases List.mem_cons.mp hev with hev | hev
      · exact ⟨st.processed, st.success_count, st.error_count, Status.batchStart bIdx nB,
          hev, hInv, by omega⟩
      rcases List.mem_append.mp hev with hev | hev
      · obtain ⟨j, cur, hj, hev2⟩ :=
          cellLoop_events proc cancel total bIdx nB b.length b 0
            { st with checks := st.checks + 1 } ev hev
        dsimp only at hev2
        have hcnt := countT_add_countF proc (b.take (j + 1))
        rw [take_length_of_le (by omega)] at hcnt
        refine ⟨st.processed + (j + 1), st.success_count + countT proc (b.take (j + 1)),
          st.error_count + countF proc (b.take (j + 1)), Status.cellDone bIdx nB cur b.length,
          hev2, by omega, by omega⟩
      rcases List.mem_cons.mp hev with hev | hev
      · have hcnt := countT_add_countF proc (b.take k)
        rw [take_length_of_le hk] at hcnt
        exact ⟨st.processed + k, st.success_count + countT proc (b.take k),
          st.error_count + countF proc (b.take k), Status.batchDone bIdx nB,
          hev, by omega, by omega⟩
      · have hcnt := countT_add_countF proc (b.take k)
        rw [take_length_of_le hk] at hcnt
        refine ih (bIdx + 1)
          { processed := st.processed + k
            success_count := st.success_count + countT proc (b.take k)
            error_count := st.error_count + countF proc (b.take k)
            all_results := st.all_results ++ (b.take k).map (mkCellResult proc)
            checks := st.checks + 1 + k + (if k < b.length then 1 else 0) }
          (by dsimp only; omega) (by dsimp only; omega) ev hev

theorem batchLoop_yields (proc : Cell → CellOutcome) (cancel : Option Nat) (total nB : Nat) :
    ∀ (batches : List (List Cell)) (bIdx : Nat) (st : RunSt),
    st.processed = st.success_count + st.error_count →
    st.processed + batches.flatten.length ≤ total →
    ∀ kind stA, Act.yieldAt kind stA ∈ (batchLoop proc cancel total nB batches bIdx st).1 →
    stA.processed = stA.success_count + stA.error_count ∧ stA.processed ≤ total ∧
      ∃ m, m ≤ batches.flatten.length ∧
        stA.all_results = st.all_results ++ ((batches.flatten.take m).map (mkCellResult proc)) := by
  intro batches
  induction batches with
  | nil =>
    intro bIdx st _ _ kind stA h
    simp [batchLoop] at h
  | cons b rest ih =>
    intro bIdx st hInv hBound kind stA h
    by_cases hf : readFlag cancel st.checks
    · simp [batchLoop, hf] at h
    · obtain ⟨k, hk, hres, hst, hflags, hftrue⟩ :=
        cellLoop_spec proc cancel total bIdx nB b.length b 0 { st with checks := st.checks + 1 }
      dsimp only at hst
      have hacts : (batchLoop proc cancel total nB (b :: rest) bIdx st).1 =
          Act.emit (Event.progress st.processed st.success_count st.error_count total
            (Status.batchStart bIdx nB)) ::
          ((cellLoop proc cancel total bIdx nB b.length b 0 { st with checks := st.checks + 1 }).1 ++
            Act.emit (Event.progress (st.processed + k) (st.success_count + countT proc (b.take k))
              (st.error_count + countF proc (b.take k)) total (Status.batchDone bIdx nB)) ::
            Act.yieldAt .batchDelay
              { processed := st.processed + k
                success_count := st.success_count + countT proc (b.take k)
                error_count := st.error_count + countF proc (b.take k)
                all_results := st.all_results ++ (b.take k).map (mkCellResult proc)
                checks := st.checks + 1 + k + (if k < b.length then 1 else 0) } ::
            (batchLoop proc cancel total nB rest (bIdx + 1)
              { processed := st.processed + k
                success_count := st.success_count + countT proc (b.take k)
                error_count := st.error_count + countF proc (b.take k)
                all_results := st.all_results ++ (b.take k).map (mkCellResult proc)
                checks := st.checks + 1 + k + (if k < b.length then 1 else 0) }).1) := by
        simp only [batchLoop, hf, Bool.false_eq_true, if_false]
        rw [hst, hres]
      rw [hacts] at h
      have hflat : (b :: rest).flatten = b ++ rest.flatten := by simp
      have hflen : (b :: rest).flatten.length = b.length + rest.flatten.length := by simp
      rcases List.mem_cons.mp h with h1 | h
      · exact absurd h1 (by simp)
      rcases List.mem_append.mp h with h | h
      · obtain ⟨hkind, j, hj, hP, hS, hE, hA⟩ :=
          cellLoop_yields proc cancel total bIdx nB b.length b 0
            { st with checks := st.checks + 1 } kind stA h
        dsimp only at hP hS hE hA
        have hcnt := countT_add_countF proc (b.take j)
        rw [take_length_of_le hj] at hcnt
        refine ⟨by omega, by omega, 0, by omega, ?_⟩
        rw [hA]
        simp
      rcases List.mem_cons.mp h with h1 | h
      · exact absurd h1 (by simp)
      rcases List.mem_cons.mp h with h1 | h
      · obtain ⟨hkind, hstA⟩ := Act.yieldAt.inj h1
        subst hstA
        have hcnt := countT_add_countF proc (b.take k)
        rw [take_length_of_le hk] at hcnt
        refine ⟨by dsimp only; omega, by dsimp only; omega, k, ?_, ?_⟩
        · rw [hflat]
          simp only [List.length_append]
          omega
        · dsimp only
          rw [hflat, List.take_append_of_le_length hk]
      · -- yields of the recursive call on the remaining batches
        by_cases hkb : k < b.length
        · -- the inner loop was interrupted: the recursion stops at once
          have htrue : readFlag cancel
              ({ processed := st.processed + k
                 success_count := st.success_count + countT proc (b.take k)
                 error_count := st.error_count + countF proc (b.take k)
                 all_results := st.all_results ++ (b.take k).map (mkCellResult proc)
                 checks := st.checks + 1 + k + (if k < b.length then 1 else 0) } : RunSt).checks
              = true := by
            refine readFlag_mono cancel (st.checks + 1 + k) _ ?_ (hftrue hkb)
            dsimp only
            omega
          rw [batchLoop_stop proc cancel total nB rest (bIdx + 1) _ htrue] at h
          simp at h
        · have hkeq : k = b.length := by omega
          subst hkeq
          have hcnt := countT_add_countF proc (b.take b.length)
          rw [take_length_of_le hk] at hcnt
          obtain ⟨hInv2, hLe2, m, hm, hA2⟩ := ih (bIdx + 1)
            { processed := st.processed + b.length
              success_count := st.success_count + countT proc (b.take b.length)
              error_count := st.error_count + countF proc (b.take b.length)
              all_results := st.all_results ++ (b.take b.length).map (mkCellResult proc)
              checks := st.checks + 1 + b.length + (if b.length < b.length then 1 else 0) }
            (by dsimp only; omega) (by dsimp only; omega) kind stA h
          dsimp only at hA2
          refine ⟨hInv2, hLe2, b.length + m, ?_, ?_⟩
          · rw [hflat]
            simp only [List.length_append]
            omega
          · rw [hA2, List.take_length, hflat, List.take_append, List.map_append,
              List.append_assoc]

theorem cellLoop_no_batchDelay (proc : Cell → CellOutcome) (cancel : Option Nat)
    (total bIdx nB bLen : Nat) (cs : List Cell) (idx : Nat) (st : RunSt) :
    (cellLoop proc cancel total bIdx nB bLen cs idx st).1.countP isBatchDelayAct = 0 := by
  rw [List.countP_eq_zero]
  intro a ha
  cases a with
  | emit e => simp [isBatchDelayAct]
  | yieldAt kind stA =>
    obtain ⟨hkind, _⟩ := cellLoop_yields proc cancel total bIdx nB bLen cs idx st kind stA ha
    rcases hkind with h | h <;> subst h <;> simp [isBatchDelayAct]

theorem cellLoop_no_batchEv (proc : Cell → CellOutcome) (cancel : Option Nat)
    (total bIdx nB bLen : Nat) (cs : List Cell) (idx : Nat) (st : RunSt) :
    (eventsOf (cellLoop proc cancel total bIdx nB bLen cs idx st).1).countP isBatchStartEv = 0 ∧
    (eventsOf (cellLoop proc cancel total bIdx nB bLen cs idx st).1).countP isBatchDoneEv = 0 := by
  constructor <;> rw [List.countP_eq_zero] <;> intro ev hev <;>
    obtain ⟨j, cur, hj, hev2⟩ := cellLoop_events proc cancel total bIdx nB bLen cs idx st ev hev <;>
    subst hev2 <;> simp [isBatchStartEv, isBatchDoneEv]

theorem isBatchStartEv_start (p s e t i n : Nat) :
    isBatchStartEv (Event.progress p s e t (Status.batchStart i n)) = true := rfl

theorem isBatchStartEv_cell (p s e t i n cur len : Nat) :
    isBatchStartEv (Event.progress p s e t (Status.cellDone i n cur len)) = false := rfl

theorem isBatchStartEv_done (p s e t i n : Nat) :
    isBatchStartEv (Event.progress p s e t (Status.batchDone i n)) = false := rfl

theorem isBatchDoneEv_start (p s e t i n : Nat) :
    isBatchDoneEv (Event.progress p s e t (Status.batchStart i n)) = false := rfl

theorem isBatchDoneEv_done (p s e t i n : Nat) :
    isBatchDoneEv (Event.progress p s e t (Status.batchDone i n)) = true := rfl

theorem isBatchDelayAct_emit (e : Event) : isBatchDelayAct (Act.emit e) = false := rfl

theorem isBatchDelayAct_delay (st : RunSt) :
    isBatchDelayAct (Act.yieldAt .batchDelay st) = true := rfl

theorem batchLoop_counts (proc : Cell → CellOutcome) (cancel : Option Nat) (total nB : Nat) :
    ∀ (batches : List (List Cell)) (bIdx : Nat) (st : RunSt),
    (eventsOf (batchLoop proc cancel total nB batches bIdx st).1).countP isBatchStartEv
      = (eventsOf (batchLoop proc cancel total nB batches bIdx st).1).countP isBatchDoneEv ∧
    (batchLoop proc cancel total nB batches bIdx st).1.countP isBatchDelayAct
      = (eventsOf (batchLoop proc cancel total nB batches bIdx st).1).countP isBatchDoneEv := by
  intro batches
  induction batches with
  | nil =>
    intro bIdx st
    simp [batchLoop, eventsOf]
  | cons b rest ih =>
    intro bIdx st
    by_cases hf : readFlag cancel st.checks
    · simp [batchLoop, hf, eventsOf]
    · obtain ⟨k, hk, hres, hst, hflags, hftrue⟩ :=
        cellLoop_spec proc cancel total bIdx nB b.length b 0 { st with checks := st.checks + 1 }
      dsimp only at hst
      have hacts : (batchLoop proc cancel total nB (b :: rest) bIdx st).1 =
          Act.emit (Event.progress st.processed st.success_count st.error_count total
            (Status.batchStart bIdx nB)) ::
          ((cellLoop proc cancel total bIdx nB b.length b 0 { st with checks := st.checks + 1 }).1 ++
            Act.emit (Event.progress (st.processed + k) (st.success_count + countT proc (b.take k))
              (st.error_count + countF proc (b.take k)) total (Status.batchDone bIdx nB)) ::
            Act.yieldAt .batchDelay
              { processed := st.processed + k
                success_count := st.success_count + countT proc (b.take k)
                error_count := st.error_count + countF proc (b.take k)
                all_results := st.all_results ++ (b.take k).map (mkCellResult proc)
                checks := st.checks + 1 + k + (if k < b.length then 1 else 0) } ::
            (batchLoop proc cancel total nB rest (bIdx + 1)
              { processed := st.processed + k
                success_count := st.success_count + countT proc (b.take k)
                error_count := st.error_count + countF proc (b.take k)
                all_results := st.all_results ++ (b.take k).map (mkCellResult proc)
                checks := st.checks + 1 + k + (if k < b.length then 1 else 0) }).1) := by
        simp only [batchLoop, hf, Bool.false_eq_true, if_false]
        rw [hst, hres]
      obtain ⟨ih1, ih2⟩ := ih (bIdx + 1)
        { processed := st.processed + k
          success_count := st.success_count + countT proc (b.take k)
          error_count := st.error_count + countF proc (b.take k)
          all_results := st.all_results ++ (b.take k).map (mkCellResult proc)
          checks := st.checks + 1 + k + (if k < b.length then 1 else 0) }
      obtain ⟨hcs, hcd⟩ := cellLoop_no_batchEv proc cancel total bIdx nB b.length b 0
        { st with checks := st.checks + 1 }
      have hca := cellLoop_no_batchDelay proc cancel total bIdx nB b.length b 0
        { st with checks := st.checks + 1 }
      rw [hacts]
      rw [eventsOf_emit, eventsOf_append, eventsOf_emit, eventsOf_yield]
      constructor
      · simp only [List.countP_cons, List.countP_append, isBatchStartEv_start,
          isBatchStartEv_done, isBatchDoneEv_start, isBatchDoneEv_done, eq_self_iff_true,
          if_true, Bool.false_eq_true, if_false]
        omega
      · simp only [List.countP_cons, List.countP_append, isBatchStartEv_start,
          isBatchStartEv_done, isBatchDoneEv_start, isBatchDoneEv_done, isBatchDelayAct_emit,
          isBatchDelayAct_delay, eq_self_iff_true, if_true, Bool.false_eq_true, if_false]
        omega

theorem truncAt_some (l : List Act) :
    ∀ (k : Nat) (p : List Act) (st : RunSt), truncAt l k = some (p, st) →
    ∃ kind suf, l = p ++ Act.yieldAt kind st :: suf := by
  induction l with
  | nil =>
    intro k p st h
    simp [truncAt] at h
  | cons a rest ih =>
    intro k p st h
    cases a with
    | emit e =>
      simp only [truncAt, Option.map_eq_some'] at h
      obtain ⟨⟨p2, st2⟩, h2, hEq⟩ := h
      obtain ⟨kind, suf, hsuf⟩ := ih k p2 st2 h2
      cases hEq
      exact ⟨kind, suf, by rw [hsuf]; rfl⟩
    | yieldAt kind0 st0 =>
      cases k with
      | zero =>
        simp only [truncAt, Option.some_inj] at h
        cases h
        exact ⟨kind0, rest, rfl⟩
      | succ k =>
        simp only [truncAt, Option.map_eq_some'] at h
        obtain ⟨⟨p2, st2⟩, h2, hEq⟩ := h
        obtain ⟨kind, suf, hsuf⟩ := ih k p2 st2 h2
        cases hEq
        exact ⟨kind, suf, by rw [hsuf]; rfl⟩

/-- If the trace ends with two posted events and truncation at a suspension
point succeeds, the cut lies before those final events: every event emitted
before the cut is an event of the loop part, and the captured state is the
state of one of the loop's suspension points. -/
theorem truncAt_before_final (B : List Act) (e1 e2 : Event) (k : Nat) (p : List Act)
    (st : RunSt) (h : truncAt (B ++ [Act.emit e1, Act.emit e2]) k = some (p, st)) :
    (∀ ev ∈ eventsOf p, Act.emit ev ∈ B) ∧ (∃ kind, Act.yieldAt kind st ∈ B) := by
  obtain ⟨kind, suf, hsuf⟩ := truncAt_some _ k p st h
  rcases List.append_eq_append_iff.mp hsuf.symm with ⟨tail2, hB, htail⟩ | ⟨tail2, hp, htail⟩
  · cases tail2 with
    | nil =>
      exfalso
      simp at htail
    | cons x xs =>
      obtain ⟨hx, _⟩ := List.cons.inj htail
      subst hx
      constructor
      · intro ev hev
        rw [hB]
        obtain ⟨a, ha, haev⟩ := List.mem_filterMap.mp hev
        have : a = Act.emit ev := by
          cases a with
          | emit e =>
            simp only at haev
            cases haev
            rfl
          | yieldAt kk ss => simp at haev
        subst this
        exact List.mem_append_left _ ha
      · exact ⟨kind, by rw [hB]; exact List.mem_append_right _ (by simp)⟩
  · exfalso
    have : Act.yieldAt kind st ∈ [Act.emit e1, Act.emit e2] := by
      rw [htail]
      simp
    simp at this

theorem chunks_nil (bs : Nat) : chunks bs [] = [] := rfl

theorem chunksFuel_congr (bs : Nat) :
    ∀ (f1 f2 : Nat) (l : List Cell), l.length ≤ f1 → l.length ≤ f2 →
    chunksFuel bs f1 l = chunksFuel bs f2 l := by
  intro f1
  induction f1 with
  | zero =>
    intro f2 l h1 h2
    cases l with
    | nil => cases f2 <;> rfl
    | cons x xs => simp at h1
  | succ f1 ih =>
    intro f2 l h1 h2
    cases l with
    | nil => cases f2 <;> rfl
    | cons x xs =>
      cases f2 with
      | zero => simp at h2
      | succ f2 =>
        simp only [chunksFuel]
        by_cases h0 : bs = 0
        · simp [h0]
        · simp only [h0, if_false]
          rw [ih f2 ((x :: xs).drop bs) (by simp at h1 ⊢; omega) (by simp at h2 ⊢; omega)]

theorem chunksFuel_of_le (bs : Nat) (fuel : Nat) (l : List Cell) (h : l.length ≤ fuel) :
    chunksFuel bs fuel l = chunks bs l :=
  chunksFuel_congr bs fuel l.length l h le_rfl

theorem chunks_cons (bs : Nat) (hbs : 1 ≤ bs) (x : Cell) (xs : List Cell) :
    chunks bs (x :: xs) = (x :: xs).take bs :: chunks bs ((x :: xs).drop bs) := by
  show chunksFuel bs (xs.length + 1) (x :: xs) = _
  simp only [chunksFuel]
  rw [if_neg (by omega : ¬bs = 0)]
  rw [chunksFuel_of_le bs xs.length ((x :: xs).drop bs) (by simp; omega)]

theorem chunks_flatten_aux (bs : Nat) (hbs : 1 ≤ bs) :
    ∀ (n : Nat) (l : List Cell), l.length ≤ n → (chunks bs l).flatten = l := by
  intro n
  induction n with
  | zero =>
    intro l hl
    cases l with
    | nil => simp [chunks_nil]
    | cons x xs => simp at hl
  | succ n ih =>
    intro l hl
    cases l with
    | nil => simp [chunks_nil]
    | cons x xs =>
      rw [chunks_cons bs hbs]
      simp only [List.flatten_cons]
      rw [ih ((x :: xs).drop bs) (by simp at hl ⊢; omega)]
      exact List.take_append_drop bs (x :: xs)

theorem chunks_flatten (bs : Nat) (hbs : 1 ≤ bs) (l : List Cell) :
    (chunks bs l).flatten = l :=
  chunks_flatten_aux bs hbs l.length l le_rfl

theorem chunks_length_aux (bs : Nat) (hbs : 1 ≤ bs) :
    ∀ (n : Nat) (l : List Cell), l.length ≤ n →
    (chunks bs l).length = (l.length + bs - 1) / bs := by
  intro n
  induction n with
  | zero =>
    intro l hl
    cases l with
    | nil =>
      simp only [chunks_nil, List.length_nil]
      exact (Nat.div_eq_of_lt (by omega)).symm
    | cons x xs => simp at hl
  | succ n ih =>
    intro l hl
    cases l with
    | nil =>
      simp only [chunks_nil, List.length_nil]
      exact (Nat.div_eq_of_lt (by omega)).symm
    | cons x xs =>
      rw [chunks_cons bs hbs]
      simp only [List.length_cons]
      rw [ih ((x :: xs).drop bs) (by simp at hl ⊢; omega)]
      simp only [List.length_drop, List.length_cons]
      have hR : (xs.length + 1 + bs - 1) / bs = xs.length / bs + 1 := by
        have h : xs.length + 1 + bs - 1 = xs.length + bs := by omega
        rw [h, Nat.add_div_right _ (by omega)]
      rw [hR]
      have hL : (xs.length + 1 - bs + bs - 1) / bs = xs.length / bs := by
        rcases Nat.lt_or_ge (xs.length + 1) bs with hlt | hge
        · have h1 : xs.length + 1 - bs + bs - 1 = bs - 1 := by omega
          rw [h1, Nat.div_eq_of_lt (by omega), Nat.div_eq_of_lt (by omega)]
        · have h1 : xs.length + 1 - bs + bs - 1 = xs.length := by omega
          rw [h1]
      rw [hL]

theorem chunks_length (bs : Nat) (hbs : 1 ≤ bs) (l : List Cell) :
    (chunks bs l).length = (l.length + bs - 1) / bs :=
  chunks_length_aux bs hbs l.length l le_rfl

theorem chunks_shape_aux (bs : Nat) (hbs : 1 ≤ bs) :
    ∀ (n : Nat) (l : List Cell), l.length ≤ n →
    ∀ b ∈ chunks bs l, b ≠ [] ∧ b.length ≤ bs := by
  intro n
  induction n with
  | zero =>
    intro l hl b hb
    cases l with
    | nil => simp [chunks_nil] at hb
    | cons x xs => simp at hl
  | succ n ih =>
    intro l hl b hb
    cases l with
    | nil => simp [chunks_nil] at hb
    | cons x xs =>
      rw [chunks_cons bs hbs] at hb
      rcases List.mem_cons.mp hb with hb | hb
      · subst hb
        constructor
        · have hlen : ((x :: xs).take bs).length = min bs (xs.length + 1) := by
            simp [List.length_take]
          intro hnil
          rw [hnil] at hlen
          simp only [List.length_nil, List.length_cons] at hlen
          omega
        · simp [List.length_take]
      · exact ih ((x :: xs).drop bs) (by simp at hl ⊢; omega) b hb

theorem chunks_shape (bs : Nat) (hbs : 1 ≤ bs) (l : List Cell) :
    ∀ b ∈ chunks bs l, b ≠ [] ∧ b.length ≤ bs :=
  chunks_shape_aux bs hbs l.length l le_rfl

theorem chunks_full_aux (bs : Nat) (hbs : 1 ≤ bs) :
    ∀ (n : Nat) (l : List Cell), l.length ≤ n →
    ∀ i, i + 1 < (chunks bs l).length → ((chunks bs l).getD i []).length = bs := by
  intro n
  induction n with
  | zero =>
    intro l hl i hi
    cases l with
    | nil => simp [chunks_nil] at hi
    | cons x xs => simp at hl
  | succ n ih =>
    intro l hl i hi
    cases l with
    | nil => simp [chunks_nil] at hi
    | cons x xs =>
      rw [chunks_cons bs hbs] at hi ⊢
      cases i with
      | zero =>
        simp only [List.getD_cons_zero, List.length_take, List.length_cons]
        simp only [List.length_cons] at hi
        have h1 : 1 ≤ (chunks bs ((x :: xs).drop bs)).length := by omega
        have h2 := chunks_length bs hbs ((x :: xs).drop bs)
        simp only [List.length_drop, List.length_cons] at h2
        rcases Nat.lt_or_ge (xs.length + 1) (bs + 1) with hlt | hge
        · exfalso
          have h3 : xs.length + 1 - bs = 0 := by omega
          rw [h3, Nat.zero_add, Nat.div_eq_of_lt (by omega)] at h2
          omega
        · omega
      | succ j =>
        simp only [List.getD_cons_succ]
        refine ih ((x :: xs).drop bs) (by simp at hl ⊢; omega) j ?_
        simp only [List.length_cons] at hi
        omega

theorem chunks_full (bs : Nat) (hbs : 1 ≤ bs) (l : List Cell) :
    ∀ i, i + 1 < (chunks bs l).length → ((chunks bs l).getD i []).length = bs :=
  chunks_full_aux bs hbs l.length l le_rfl

theorem mem_eventsOf {l : List Act} {ev : Event} : ev ∈ eventsOf l ↔ Act.emit ev ∈ l := by
  constructor
  · intro h
    obtain ⟨a, ha, haev⟩ := List.mem_filterMap.mp h
    cases a with
    | emit e =>
      simp only [eventsOf] at haev
      obtain rfl : e = ev := by
        simpa using haev
      exact ha
    | yieldAt k s => simp [eventsOf] at haev
  · intro h
    exact List.mem_filterMap.mpr ⟨Act.emit ev, h, rfl⟩

theorem tryBody_acts (cells : List Cell) (bs : Nat) (proc : Cell → CellOutcome)
    (cancel : Option Nat) :
    (tryBody cells bs proc cancel).1 =
      (batchLoop proc cancel cells.length (chunks bs cells).length (chunks bs cells) 0
        ⟨0, 0, 0, [], 0⟩).1 ++
      [Act.emit (Event.progress
          (batchLoop proc cancel cells.length (chunks bs cells).length (chunks bs cells) 0
            ⟨0, 0, 0, [], 0⟩).2.processed
          (batchLoop proc cancel cells.length (chunks bs cells).length (chunks bs cells) 0
            ⟨0, 0, 0, [], 0⟩).2.success_count
          (batchLoop proc cancel cells.length (chunks bs cells).length (chunks bs cells) 0
            ⟨0, 0, 0, [], 0⟩).2.error_count
          cells.length
          (if readFlag cancel
              (batchLoop proc cancel cells.length (chunks bs cells).length (chunks bs cells) 0
                ⟨0, 0, 0, [], 0⟩).2.checks
            then Status.cancelled else Status.finished)),
       Act.emit (Event.complete
          (batchLoop proc cancel cells.length (chunks bs cells).length (chunks bs cells) 0
            ⟨0, 0, 0, [], 0⟩).2.all_results
          (batchLoop proc cancel cells.length (chunks bs cells).length (chunks bs cells) 0
            ⟨0, 0, 0, [], 0⟩).2.success_count
          (batchLoop proc cancel cells.length (chunks bs cells).length (chunks bs cells) 0
            ⟨0, 0, 0, [], 0⟩).2.error_count)] := rfl

theorem getLastD_append_two (l : List Event) (a b d : Event) :
    (l ++ [a, b]).getLastD d = b := by
  have h : l ++ [a, b] = (l ++ [a]) ++ [b] := by simp
  rw [h, List.getLastD_concat]

theorem completesOnceLast_append (l : List Event) (p : Event) (r : List CellResult)
    (s e : Nat) (hp : isCompleteEv p = false) (h : l.countP isCompleteEv = 0) :
    completesOnceLast (l ++ [p, Event.complete r s e]) = true := by
  simp only [completesOnceLast, Bool.and_eq_true, beq_iff_eq]
  constructor
  · simp only [List.countP_append, List.countP_cons, List.countP_nil, h, hp]
    simp [isCompleteEv]
  · rw [getLastD_append_two]
    rfl

theorem batchLoop_top_events (cells : List Cell) (bs : Nat) (proc : Cell → CellOutcome)
    (cancel : Option Nat) (hbs : 1 ≤ bs) :
    ∀ ev ∈ eventsOf (batchLoop proc cancel cells.length (chunks bs cells).length
        (chunks bs cells) 0 ⟨0, 0, 0, [], 0⟩).1,
    ∃ p s e stat, ev = Event.progress p s e cells.length stat ∧ p = s + e ∧ p ≤ cells.length := by
  intro ev hev
  refine batchLoop_events proc cancel cells.length (chunks bs cells).length
    (chunks bs cells) 0 ⟨0, 0, 0, [], 0⟩ rfl ?_ ev hev
  rw [chunks_flatten bs hbs]
  dsimp only
  omega

theorem batchLoop_top_no_complete (cells : List Cell) (bs : Nat) (proc : Cell → CellOutcome)
    (cancel : Option Nat) (hbs : 1 ≤ bs) :
    (eventsOf (batchLoop proc cancel cells.length (chunks bs cells).length
        (chunks bs cells) 0 ⟨0, 0, 0, [], 0⟩).1).countP isCompleteEv = 0 := by
  rw [List.countP_eq_zero]
  intro ev hev
  obtain ⟨p, s, e, stat, hev2, _, _⟩ :=
    batchLoop_top_events cells bs proc cancel hbs ev hev
  subst hev2
  simp [isCompleteEv]

/-- Claim C1: every run — completed, flag-cancelled, task-cancelled or faulted
at any suspension point — delivers exactly one completion event, and it is the
last event of the run, after every progress event. -/
theorem C1_completion_once_and_last (cells : List Cell) (bs : Nat)
    (proc : Cell → CellOutcome) (cancel : Option Nat) (fault : Option (Nat × Status))
    (hbs : 1 ≤ bs) :
    completesOnceLast (run cells bs proc cancel fault) = true := by
  have hnc := batchLoop_top_no_complete cells bs proc cancel hbs
  cases fault with
  | none =>
    show completesOnceLast (runEvents cells bs proc cancel) = true
    rw [runEvents, tryBody_acts, eventsOf_append]
    exact completesOnceLast_append _ _ _ _ _ (by simp [eventsOf, isCompleteEv]) hnc
  | some ks =>
    obtain ⟨k, stat⟩ := ks
    show completesOnceLast (match truncAt (tryBody cells bs proc cancel).1 k with
      | none => runEvents cells bs proc cancel
      | some (pre, st) => eventsOf pre ++
          [Event.progress st.processed st.success_count st.error_count cells.length stat,
           Event.complete st.all_results st.success_count st.error_count]) = true
    cases htr : truncAt (tryBody cells bs proc cancel).1 k with
    | none =>
      rw [runEvents, tryBody_acts, eventsOf_append]
      exact completesOnceLast_append _ _ _ _ _ (by simp [eventsOf, isCompleteEv]) hnc
    | some pst =>
      obtain ⟨pre, st⟩ := pst
      rw [tryBody_acts] at htr
      obtain ⟨hmem, _⟩ := truncAt_before_final _ _ _ _ _ _ htr
      refine completesOnceLast_append _ _ _ _ _ (by simp [isCompleteEv]) ?_
      rw [List.countP_eq_zero]
      intro ev hev
      have hin : ev ∈ eventsOf (batchLoop proc cancel cells.length (chunks bs cells).length
          (chunks bs cells) 0 ⟨0, 0, 0, [], 0⟩).1 := mem_eventsOf.mpr (hmem ev hev)
      obtain ⟨p, s, e, stat2, hev2, _, _⟩ :=
        batchLoop_top_events cells bs proc cancel hbs ev hin
      subst hev2
      simp [isCompleteEv]

/-- Witness for C1 at a concrete cancelled-and-faulted run. -/
theorem C1_witness :
    1 ≤ 2 ∧ completesOnceLast (run [⟨0, 0, "a"⟩, ⟨0, 1, "b"⟩, ⟨0, 2, "c"⟩] 2
      (fun _ => (true, some "OK", none)) (some 1) (some (0, .cancelled))) = true :=
  ⟨by decide, C1_completion_once_and_last [⟨0, 0, "a"⟩, ⟨0, 1, "b"⟩, ⟨0, 2, "c"⟩] 2
    (fun _ => (true, some "OK", none)) (some 1) (some (0, .cancelled)) (by decide)⟩

theorem batchLoop_top_spec (cells : List Cell) (bs : Nat) (proc : Cell → CellOutcome)
    (cancel : Option Nat) (hbs : 1 ≤ bs) :
    ∃ d, d ≤ cells.length ∧
      (batchLoop proc cancel cells.length (chunks bs cells).length (chunks bs cells) 0
        ⟨0, 0, 0, [], 0⟩).2.processed = d ∧
      (batchLoop proc cancel cells.length (chunks bs cells).length (chunks bs cells) 0
        ⟨0, 0, 0, [], 0⟩).2.success_count = countT proc (cells.take d) ∧
      (batchLoop proc cancel cells.length (chunks bs cells).length (chunks bs cells) 0
        ⟨0, 0, 0, [], 0⟩).2.error_count = countF proc (cells.take d) ∧
      (batchLoop proc cancel cells.length (chunks bs cells).length (chunks bs cells) 0
        ⟨0, 0, 0, [], 0⟩).2.all_results = (cells.take d).map (mkCellResult proc) ∧
      ((∀ t, cancel = some t → (chunks bs cells).length + cells.length ≤ t) ∨ cancel = none
        → d = cells.length) ∧
      (∀ t, cancel = some t → t < (chunks bs cells).length + cells.length
        → d < cells.length) := by
  have hfl : (chunks bs cells).flatten = cells := chunks_flatten bs hbs cells
  obtain ⟨d, hd, hP, hS, hE, hA, hC, hFull, hZero, hEarly⟩ :=
    batchLoop_spec proc cancel cells.length (chunks bs cells).length (chunks bs cells) 0
      ⟨0, 0, 0, [], 0⟩
  rw [hfl] at hd hS hE hA hFull hEarly
  dsimp only at hP hS hE hA hFull hZero hEarly
  refine ⟨d, hd, by rw [hP]; omega, by rw [hS]; omega, by rw [hE]; omega, by rw [hA]; simp, ?_, ?_⟩
  · intro hc
    apply hFull
    intro i hi
    rcases hc with hc | hc
    · cases cancel with
      | none => rfl
      | some t =>
        have := hc t rfl
        simp only [readFlag, decide_eq_false_iff_not]
        simp only [Nat.zero_add] at hi
        omega
    · subst hc
      rfl
  · intro t hc hlt
    have hne : ∀ b ∈ chunks bs cells, b ≠ [] := by
      intro b hb
      exact (chunks_shape bs hbs cells b hb).1
    exact hEarly t hc (by omega) (by omega) hne

/-- Claim C2: at every progress event and at the completion event the counters
satisfy processed = success_count + error_count and processed ≤ len(cells);
and the uninterrupted run's final processed equals len(cells) exactly when no
cancellation became visible at one of the loop's flag reads. -/
theorem C2_counters_invariant (cells : List Cell) (bs : Nat) (proc : Cell → CellOutcome)
    (cancel : Option Nat) (fault : Option (Nat × Status)) (hbs : 1 ≤ bs) :
    (∀ p s e t stat, Event.progress p s e t stat ∈ run cells bs proc cancel fault →
      p = s + e ∧ p ≤ cells.length) ∧
    (∀ r s e, Event.complete r s e ∈ run cells bs proc cancel fault →
      s + e ≤ cells.length) ∧
    ((tryBody cells bs proc cancel).2.processed = cells.length ↔
      cancelledEarly cancel cells bs = false) := by
  have hfl : (chunks bs cells).flatten = cells := chunks_flatten bs hbs cells
  obtain ⟨d, hd, hP, hS, hE, hA, hFull, hEarly⟩ :=
    batchLoop_top_spec cells bs proc cancel hbs
  have hcnt := countT_add_countF proc (cells.take d)
  rw [take_length_of_le hd] at hcnt
  have hBatchEv : ∀ p s e t stat,
      Event.progress p s e t stat ∈ eventsOf (batchLoop proc cancel cells.length
        (chunks bs cells).length (chunks bs cells) 0 ⟨0, 0, 0, [], 0⟩).1 →
      p = s + e ∧ p ≤ cells.length := by
    intro p s e t stat hmem
    obtain ⟨p2, s2, e2, stat2, heq, hinv, hle⟩ :=
      batchLoop_top_events cells bs proc cancel hbs _ hmem
    obtain ⟨h1, h2, h3, _, _⟩ := Event.progress.inj heq
    subst h1; subst h2; subst h3
    exact ⟨hinv, hle⟩
  have hYield : ∀ kind stA, Act.yieldAt kind stA ∈ (batchLoop proc cancel cells.length
      (chunks bs cells).length (chunks bs cells) 0 ⟨0, 0, 0, [], 0⟩).1 →
      stA.processed = stA.success_count + stA.error_count ∧ stA.processed ≤ cells.length := by
    intro kind stA hmem
    obtain ⟨h1, h2, _⟩ := batchLoop_yields proc cancel cells.length (chunks bs cells).length
      (chunks bs cells) 0 ⟨0, 0, 0, [], 0⟩ rfl (by rw [hfl]; dsimp only; omega) kind stA hmem
    exact ⟨h1, h2⟩
  refine ⟨?_, ?_, ?_⟩
  · intro p s e t stat hmem
    cases fault with
    | none =>
      rw [show run cells bs proc cancel none = runEvents cells bs proc cancel from rfl,
        runEvents, tryBody_acts, eventsOf_append] at hmem
      rcases List.mem_append.mp hmem with hmem | hmem
      · exact hBatchEv p s e t stat hmem
      · simp only [eventsOf, List.filterMap_cons, List.filterMap_nil] at hmem
        rcases List.mem_cons.mp hmem with heq | hmem
        · obtain ⟨h1, h2, h3, _, _⟩ := Event.progress.inj heq
          subst h1; subst h2; subst h3
          rw [hP, hS, hE]
          omega
        · rcases List.mem_cons.mp hmem with heq | hmem
          · exact absurd heq (by simp)
          · simp at hmem
    | some ks =>
      obtain ⟨k, stat0⟩ := ks
      revert hmem
      show Event.progress p s e t stat ∈ (match truncAt (tryBody cells bs proc cancel).1 k with
        | none => runEvents cells bs proc cancel
        | some (pre, st) => eventsOf pre ++
            [Event.progress st.processed st.success_count st.error_count cells.length stat0,
             Event.complete st.all_results st.success_count st.error_count]) → _
      cases htr : truncAt (tryBody cells bs proc cancel).1 k with
      | none =>
        intro hmem
        rw [runEvents, tryBody_acts, eventsOf_append] at hmem
        rcases List.mem_append.mp hmem with hmem | hmem
        · exact hBatchEv p s e t stat hmem
        · simp only [eventsOf, List.filterMap_cons, List.filterMap_nil] at hmem
          rcases List.mem_cons.mp hmem with heq | hmem
          · obtain ⟨h1, h2, h3, _, _⟩ := Event.progress.inj heq
            subst h1; subst h2; subst h3
            rw [hP, hS, hE]
            omega
          · rcases List.mem_cons.mp hmem with heq | hmem
            · exact absurd heq (by simp)
            · simp at hmem
      | some pst =>
        obtain ⟨pre, st⟩ := pst
        intro hmem
        rw [tryBody_acts] at htr
        obtain ⟨hmemB, kind, hyield⟩ := truncAt_before_final _ _ _ _ _ _ htr
        rcases List.mem_append.mp hmem with hmem | hmem
        · exact hBatchEv p s e t stat (mem_eventsOf.mpr (hmemB _ hmem))
        · rcases List.mem_cons.mp hmem with heq | hmem
          · obtain ⟨h1, h2, h3, _, _⟩ := Event.progress.inj heq
            subst h1; subst h2; subst h3
            obtain ⟨hi1, hi2⟩ := hYield kind st hyield
            exact ⟨hi1, hi2⟩
          · rcases List.mem_cons.mp hmem with heq | hmem
            · exact absurd heq (by simp)
            · simp at hmem
  · intro r s e hmem
    cases fault with
    | none =>
      rw [show run cells bs proc cancel none = runEvents cells bs proc cancel from rfl,
        runEvents, tryBody_acts, eventsOf_append] at hmem
      rcases List.mem_append.mp hmem with hmem | hmem
      · obtain ⟨p2, s2, e2, stat2, heq, _, _⟩ :=
          batchLoop_top_events cells bs proc cancel hbs _ hmem
        exact absurd heq (by simp)
      · simp only [eventsOf, List.filterMap_cons, List.filterMap_nil] at hmem
        rcases List.mem_cons.mp hmem with heq | hmem
        · exact absurd heq (by simp)
        · rcases List.mem_cons.mp hmem with heq | hmem
          · obtain ⟨h1, h2, h3⟩ := Event.complete.inj heq
            subst h2; subst h3
            rw [hS, hE]
            omega
          · simp at hmem
    | some ks =>
      obtain ⟨k, stat0⟩ := ks
      revert hmem
      show Event.complete r s e ∈ (match truncAt (tryBody cells bs proc cancel).1 k with
        | none => runEvents cells bs proc cancel
        | some (pre, st) => eventsOf pre ++
            [Event.progress st.processed st.success_count st.error_count cells.length stat0,
             Event.complete st.all_results st.success_count st.error_count]) → _
      cases htr : truncAt (tryBody cells bs proc cancel).1 k with
      | none =>
        intro hmem
        rw [runEvents, tryBody_acts, eventsOf_append] at hmem
        rcases List.mem_append.mp hmem with hmem | hmem
        · obtain ⟨p2, s2, e2, stat2, heq, _, _⟩ :=
            batchLoop_top_events cells bs proc cancel hbs _ hmem
          exact absurd heq (by simp)
        · simp only [eventsOf, List.filterMap_cons, List.filterMap_nil] at hmem
          rcases List.mem_cons.mp hmem with heq | hmem
          · exact absurd heq (by simp)
          · rcases List.mem_cons.mp hmem with heq | hmem
            · obtain ⟨h1, h2, h3⟩ := Event.complete.inj heq
              subst h2; subst h3
              rw [hS, hE]
              omega
            · simp at hmem
      | some pst =>
        obtain ⟨pre, st⟩ := pst
        intro hmem
        rw [tryBody_acts] at htr
        obtain ⟨hmemB, kind, hyield⟩ := truncAt_before_final _ _ _ _ _ _ htr
        rcases List.mem_append.mp hmem with hmem | hmem
        · obtain ⟨p2, s2, e2, stat2, heq, _, _⟩ :=
            batchLoop_top_events cells bs proc cancel hbs _
              (mem_eventsOf.mpr (hmemB _ hmem))
          exact absurd heq (by simp)
        · rcases List.mem_cons.mp hmem with heq | hmem
          · exact absurd heq (by simp)
          · rcases List.mem_cons.mp hmem with heq | hmem
            · obtain ⟨h1, h2, h3⟩ := Event.complete.inj heq
              subst h2; subst h3
              obtain ⟨hi1, hi2⟩ := hYield kind st hyield
              omega
            · simp at hmem
  · have hfinal : (tryBody cells bs proc cancel).2.processed =
        (batchLoop proc cancel cells.length (chunks bs cells).length (chunks bs cells) 0
          ⟨0, 0, 0, [], 0⟩).2.processed := rfl
    rw [hfinal, hP]
    constructor
    · intro hdn
      cases hc : cancel with
      | none => rfl
      | some t =>
        simp only [cancelledEarly, decide_eq_false_iff_not]
        intro hlt
        have := hEarly t hc hlt
        omega
    · intro hce
      cases hc : cancel with
      | none => exact hFull (Or.inr hc)
      | some t =>
        rw [hc] at hce
        simp only [cancelledEarly, decide_eq_false_iff_not] at hce
        refine hFull (Or.inl ?_)
        intro t2 ht2
        rw [hc] at ht2
        obtain rfl : t = t2 := by
          simpa using ht2
        omega

/-- Witness for C2 at a concrete partially-failing cancelled run. -/
theorem C2_witness :
    1 ≤ 2 ∧
    ((∀ p s e t stat, Event.progress p s e t stat ∈ run [⟨0, 0, "a"⟩, ⟨0, 1, "b"⟩, ⟨0, 2, "c"⟩] 2
        (fun c => if c.col = 1 then (false, none, some "blocked") else (true, some "OK", none))
        (some 3) none → p = s + e ∧ p ≤ 3) ∧
      (∀ r s e, Event.complete r s e ∈ run [⟨0, 0, "a"⟩, ⟨0, 1, "b"⟩, ⟨0, 2, "c"⟩] 2
        (fun c => if c.col = 1 then (false, none, some "blocked") else (true, some "OK", none))
        (some 3) none → s + e ≤ 3) ∧
      ((tryBody [⟨0, 0, "a"⟩, ⟨0, 1, "b"⟩, ⟨0, 2, "c"⟩] 2
        (fun c => if c.col = 1 then (false, none, some "blocked") else (true, some "OK", none))
        (some 3)).2.processed = 3 ↔
        cancelledEarly (some 3) [⟨0, 0, "a"⟩, ⟨0, 1, "b"⟩, ⟨0, 2, "c"⟩] 2 = false)) :=
  ⟨by decide, C2_counters_invariant [⟨0, 0, "a"⟩, ⟨0, 1, "b"⟩, ⟨0, 2, "c"⟩] 2
    (fun c => if c.col = 1 then (false, none, some "blocked") else (true, some "OK", none))
    (some 3) none (by decide)⟩

/-- Counterexample to claim C3 as stated: when `cancel_processing` lands as an
`asyncio.CancelledError` at the inter-cell sleep after the first cell of a
batch was processed (flag set, task cancelled), the completion event reports
success_count + error_count = 1 processed cell but an empty result list — the
current batch's partial `batch_results` were never extended into
`all_results`, so the completion results do not contain every processed
cell. -/
theorem C3_counterexample :
    resultsMatchProcessed [⟨0, 0, "a"⟩, ⟨0, 1, "b"⟩] 2 (fun _ => (true, some "OK", none))
        (some 2) (some (1, .cancelled)) = false ∧
    finalEventOf (run [⟨0, 0, "a"⟩, ⟨0, 1, "b"⟩] 2 (fun _ => (true, some "OK", none))
        (some 2) (some (1, .cancelled))) = Event.complete [] 1 0 := by
  constructor
  · decide
  · decide

/-- Claim C3 (amended): the completion result list is always a prefix (in
input order, never reordered) of the per-cell results of the input cells; when
the coroutine is not interrupted at a suspension point (flag-observed
cancellation only), it is exactly the processed prefix, containing every
processed cell; and a cancellation already visible at the first flag read
yields the trace [cancelled-progress, completion] with processed = 0 and an
empty result list.  (When a task-cancel or fault interrupts mid-batch, the
current batch's partial results are dropped from the completion list even
though they are counted, as the counterexample shows.) -/
theorem C3_results_prefix (cells : List Cell) (bs : Nat) (proc : Cell → CellOutcome)
    (cancel : Option Nat) (fault : Option (Nat × Status)) (hbs : 1 ≤ bs) :
    (∀ r s e, finalEventOf (run cells bs proc cancel fault) = Event.complete r s e →
      ∃ m, m ≤ cells.length ∧ r = (cells.take m).map (mkCellResult proc)) ∧
    (fault = none →
      ∀ r s e, finalEventOf (run cells bs proc cancel fault) = Event.complete r s e →
        r = (cells.take (s + e)).map (mkCellResult proc)) ∧
    (fault = none → cancel = some 0 →
      run cells bs proc cancel fault =
        [Event.progress 0 0 0 cells.length Status.cancelled, Event.complete [] 0 0]) := by
  have hfl : (chunks bs cells).flatten = cells := chunks_flatten bs hbs cells
  obtain ⟨d, hd, hP, hS, hE, hA, hFull, hEarly⟩ :=
    batchLoop_top_spec cells bs proc cancel hbs
  have hcnt := countT_add_countF proc (cells.take d)
  rw [take_length_of_le hd] at hcnt
  have hfinalNone : finalEventOf (runEvents cells bs proc cancel) =
      Event.complete ((cells.take d).map (mkCellResult proc)) (countT proc (cells.take d))
        (countF proc (cells.take d)) := by
    rw [runEvents, tryBody_acts, eventsOf_append]
    show ((eventsOf _) ++ [Event.progress _ _ _ _ _, Event.complete _ _ _]).getLastD _ = _
    rw [getLastD_append_two, hA, hS, hE]
  refine ⟨?_, ?_, ?_⟩
  · intro r s e hev
    cases fault with
    | none =>
      rw [show run cells bs proc cancel none = runEvents cells bs proc cancel from rfl,
        hfinalNone] at hev
      obtain ⟨h1, h2, h3⟩ := Event.complete.inj hev.symm
      exact ⟨d, hd, h1⟩
    | some ks =>
      obtain ⟨k, stat0⟩ := ks
      revert hev
      show finalEventOf (match truncAt (tryBody cells bs proc cancel).1 k with
        | none => runEvents cells bs proc cancel
        | some (pre, st) => eventsOf pre ++
            [Event.progress st.processed st.success_count st.error_count cells.length stat0,
             Event.complete st.all_results st.success_count st.error_count]) =
          Event.complete r s e → _
      cases htr : truncAt (tryBody cells bs proc cancel).1 k with
      | none =>
        intro hev
        rw [hfinalNone] at hev
        obtain ⟨h1, h2, h3⟩ := Event.complete.inj hev.symm
        exact ⟨d, hd, h1⟩
      | some pst =>
        obtain ⟨pre, st⟩ := pst
        intro hev
        rw [show finalEventOf (eventsOf pre ++
            [Event.progress st.processed st.success_count st.error_count cells.length stat0,
             Event.complete st.all_results st.success_count st.error_count]) =
          Event.complete st.all_results st.success_count st.error_count from
          getLastD_append_two _ _ _ _] at hev
        obtain ⟨h1, h2, h3⟩ := Event.complete.inj hev.symm
        rw [tryBody_acts] at htr
        obtain ⟨hmemB, kind, hyield⟩ := truncAt_before_final _ _ _ _ _ _ htr
        obtain ⟨_, _, m, hm, hAm⟩ := batchLoop_yields proc cancel cells.length
          (chunks bs cells).length (chunks bs cells) 0 ⟨0, 0, 0, [], 0⟩ rfl
          (by rw [hfl]; dsimp only; omega) kind st hyield
        rw [hfl] at hm hAm
        dsimp only at hAm
        refine ⟨m, hm, ?_⟩
        rw [h1, hAm]
        simp
  · intro hfn r s e hev
    subst hfn
    rw [show run cells bs proc cancel none = runEvents cells bs proc cancel from rfl,
      hfinalNone] at hev
    obtain ⟨h1, h2, h3⟩ := Event.complete.inj hev.symm
    rw [h1, h2, h3, hcnt]
  · intro hfn hc0
    subst hfn
    subst hc0
    have hstop : (batchLoop proc (some 0) cells.length (chunks (bs) cells).length
        (chunks bs cells) 0 ⟨0, 0, 0, [], 0⟩).1 = [] :=
      batchLoop_stop _ _ _ _ _ _ _ (by simp [readFlag])
    have hd0 : d = 0 := by
      rcases Nat.eq_zero_or_pos cells.length with hn | hn
      · omega
      · by_contra hne
        obtain ⟨d2, hd2, hP2, hS2, hE2, hA2, hC2, hFull2, hZero2, hEarly2⟩ :=
          batchLoop_spec proc (some 0) cells.length (chunks bs cells).length
            (chunks bs cells) 0 ⟨0, 0, 0, [], 0⟩
        have h0 : d2 = 0 := hZero2 0 rfl (by dsimp only; omega)
        rw [hP] at hP2
        dsimp only at hP2
        omega
    show runEvents cells bs proc (some 0) = _
    rw [runEvents, tryBody_acts, eventsOf_append, hstop]
    have hr : readFlag (some 0) (batchLoop proc (some 0) cells.length
        (chunks bs cells).length (chunks bs cells) 0 ⟨0, 0, 0, [], 0⟩).2.checks = true := by
      simp [readFlag]
    rw [hP, hS, hE, hA, hd0, hr]
    simp [eventsOf, countT, countF]

/-- Witness for the amended C3 at a concrete flag-cancelled run. -/
theorem C3_witness :
    1 ≤ 2 ∧
    ((∀ r s e, finalEventOf (run [⟨0, 0, "a"⟩, ⟨0, 1, "b"⟩, ⟨0, 2, "c"⟩] 2
        (fun _ => (true, some "OK", none)) (some 3) none) = Event.complete r s e →
      ∃ m, m ≤ 3 ∧ r = (([⟨0, 0, "a"⟩, ⟨0, 1, "b"⟩, ⟨0, 2, "c"⟩] : List Cell).take m).map
        (mkCellResult (fun _ => (true, some "OK", none)))) ∧
    ((none : Option (Nat × Status)) = none →
      ∀ r s e, finalEventOf (run [⟨0, 0, "a"⟩, ⟨0, 1, "b"⟩, ⟨0, 2, "c"⟩] 2
        (fun _ => (true, some "OK", none)) (some 3) none) = Event.complete r s e →
        r = (([⟨0, 0, "a"⟩, ⟨0, 1, "b"⟩, ⟨0, 2, "c"⟩] : List Cell).take (s + e)).map
          (mkCellResult (fun _ => (true, some "OK", none)))) ∧
    ((none : Option (Nat × Status)) = none → (some 3 : Option Nat) = some 0 →
      run [⟨0, 0, "a"⟩, ⟨0, 1, "b"⟩, ⟨0, 2, "c"⟩] 2 (fun _ => (true, some "OK", none))
        (some 3) none = [Event.progress 0 0 0 3 Status.cancelled, Event.complete [] 0 0])) :=
  ⟨by decide, C3_results_prefix [⟨0, 0, "a"⟩, ⟨0, 1, "b"⟩, ⟨0, 2, "c"⟩] 2
    (fun _ => (true, some "OK", none)) (some 3) none (by decide)⟩

/-- Claim C4: for every batch size ≥ 1 the scheduler splits the cells into
consecutive order-preserving chunks of that size (last possibly shorter),
producing exactly ceil(n / bs) batches; and with no cells there are no batches
and the run immediately delivers the final progress event and a completion
event with empty results and zero counters. -/
theorem C4_batch_split (cells : List Cell) (bs : Nat) (proc : Cell → CellOutcome)
    (cancel : Option Nat) (fault : Option (Nat × Status)) (hbs : 1 ≤ bs) :
    (chunks bs cells).flatten = cells ∧
    (chunks bs cells).length = (cells.length + bs - 1) / bs ∧
    (∀ b ∈ chunks bs cells, b ≠ [] ∧ b.length ≤ bs) ∧
    (∀ i, i + 1 < (chunks bs cells).length → ((chunks bs cells).getD i []).length = bs) ∧
    (cells = [] → run cells bs proc cancel fault =
      [Event.progress 0 0 0 0 (if readFlag cancel 0 then Status.cancelled else Status.finished),
       Event.complete [] 0 0]) := by
  refine ⟨chunks_flatten bs hbs cells, chunks_length bs hbs cells, chunks_shape bs hbs cells,
    chunks_full bs hbs cells, ?_⟩
  intro hnil
  subst hnil
  cases fault with
  | none => rfl
  | some ks =>
    obtain ⟨k, stat⟩ := ks
    show (match truncAt (tryBody [] bs proc cancel).1 k with
      | none => runEvents [] bs proc cancel
      | some (pre, st) => eventsOf pre ++
          [Event.progress st.processed st.success_count st.error_count ([] : List Cell).length stat,
           Event.complete st.all_results st.success_count st.error_count]) = _
    have htr : truncAt (tryBody [] bs proc cancel).1 k = none := by
      show truncAt [Act.emit _, Act.emit _] k = none
      simp [truncAt]
    rw [htr]
    rfl

/-- Witness for C4 at batch size 2 over three cells and over no cells. -/
theorem C4_witness :
    1 ≤ 2 ∧
    ((chunks 2 [⟨0, 0, "a"⟩, ⟨0, 1, "b"⟩, ⟨0, 2, "c"⟩]).flatten
        = [⟨0, 0, "a"⟩, ⟨0, 1, "b"⟩, ⟨0, 2, "c"⟩] ∧
      (chunks 2 [⟨0, 0, "a"⟩, ⟨0, 1, "b"⟩, ⟨0, 2, "c"⟩]).length = (3 + 2 - 1) / 2 ∧
      (∀ b ∈ chunks 2 [⟨0, 0, "a"⟩, ⟨0, 1, "b"⟩, ⟨0, 2, "c"⟩], b ≠ [] ∧ b.length ≤ 2) ∧
      (∀ i, i + 1 < (chunks 2 [⟨0, 0, "a"⟩, ⟨0, 1, "b"⟩, ⟨0, 2, "c"⟩]).length →
        ((chunks 2 [⟨0, 0, "a"⟩, ⟨0, 1, "b"⟩, ⟨0, 2, "c"⟩]).getD i []).length = 2) ∧
      (([⟨0, 0, "a"⟩, ⟨0, 1, "b"⟩, ⟨0, 2, "c"⟩] : List Cell) = [] →
        run [⟨0, 0, "a"⟩, ⟨0, 1, "b"⟩, ⟨0, 2, "c"⟩] 2 (fun _ => (true, some "OK", none))
          none none =
        [Event.progress 0 0 0 0 (if readFlag none 0 then Status.cancelled else Status.finished),
         Event.complete [] 0 0])) ∧
    run [] 2 (fun _ => (true, some "OK", none)) none none =
      [Event.progress 0 0 0 0 Status.finished, Event.complete [] 0 0] :=
  ⟨by decide, C4_batch_split [⟨0, 0, "a"⟩, ⟨0, 1, "b"⟩, ⟨0, 2, "c"⟩] 2
    (fun _ => (true, some "OK", none)) none none (by decide), by decide⟩

theorem resultShaped_mk (proc : Cell → CellOutcome) (c : Cell) :
    resultShaped (mkCellResult proc c) = wellShaped (proc c) := by
  rcases hpc : proc c with ⟨b, ro, eo⟩
  simp only [mkCellResult, resultShaped, hpc]
  cases b <;> cases ro <;> cases eo <;> rfl

/-- Claim C6: when every provider outcome is well-shaped, every CellResult in
the completion list is well-shaped (success=false comes with its error text
set and no result), the completion counters count exactly the successes and
failures among the recorded results, and a failure does not stop the run: with
no cancellation every cell is processed. -/
theorem C6_failures_recorded (cells : List Cell) (bs : Nat) (proc : Cell → CellOutcome)
    (cancel : Option Nat) (hbs : 1 ≤ bs) (hws : ∀ c, wellShaped (proc c) = true) :
    ∀ r s e, finalEventOf (run cells bs proc cancel none) = Event.complete r s e →
      (∀ cr ∈ r, resultShaped cr = true) ∧
      s = r.countP (fun cr => cr.success) ∧
      e = r.countP (fun cr => !cr.success) ∧
      (cancel = none → r.length = cells.length) := by
  obtain ⟨d, hd, hP, hS, hE, hA, hFull, hEarly⟩ :=
    batchLoop_top_spec cells bs proc cancel hbs
  have hfinalNone : finalEventOf (runEvents cells bs proc cancel) =
      Event.complete ((cells.take d).map (mkCellResult proc)) (countT proc (cells.take d))
        (countF proc (cells.take d)) := by
    rw [runEvents, tryBody_acts, eventsOf_append]
    show ((eventsOf _) ++ [Event.progress _ _ _ _ _, Event.complete _ _ _]).getLastD _ = _
    rw [getLastD_append_two, hA, hS, hE]
  intro r s e hev
  rw [show run cells bs proc cancel none = runEvents cells bs proc cancel from rfl,
    hfinalNone] at hev
  obtain ⟨h1, h2, h3⟩ := Event.complete.inj hev.symm
  subst h1
  refine ⟨?_, ?_, ?_, ?_⟩
  · intro cr hcr
    obtain ⟨c, hc, hcrc⟩ := List.mem_map.mp hcr
    rw [← hcrc, resultShaped_mk]
    exact hws c
  · subst h2
    rw [List.countP_map]
    rfl
  · subst h3
    rw [List.countP_map]
    rfl
  · intro hcn
    subst hcn
    have hdn : d = cells.length := hFull (Or.inr rfl)
    subst hdn
    simp [List.take_length]

/-- Witness for C6: three cells with the provider failing on cell index 1 only
(the spec's scenario): error_count = 1, success_count = n - 1 = 2, and cell
1's result has success = false, error = "blocked". -/
theorem C6_witness :
    (1 ≤ 2 ∧ ∀ c : Cell, wellShaped ((fun c : Cell =>
      if c.col = 1 then (false, none, some "blocked") else (true, some "OK", none)) c) = true) ∧
    (∀ r s e, finalEventOf (run [⟨0, 0, "a"⟩, ⟨0, 1, "b"⟩, ⟨0, 2, "c"⟩] 2
        (fun c : Cell => if c.col = 1 then (false, none, some "blocked")
          else (true, some "OK", none)) none none) = Event.complete r s e →
      (∀ cr ∈ r, resultShaped cr = true) ∧
      s = r.countP (fun cr => cr.success) ∧
      e = r.countP (fun cr => !cr.success) ∧
      ((none : Option Nat) = none → r.length = 3)) ∧
    finalEventOf (run [⟨0, 0, "a"⟩, ⟨0, 1, "b"⟩, ⟨0, 2, "c"⟩] 2
        (fun c : Cell => if c.col = 1 then (false, none, some "blocked")
          else (true, some "OK", none)) none none) =
      Event.complete [⟨0, 0, true, some "OK", none⟩, ⟨0, 1, false, none, some "blocked"⟩,
        ⟨0, 2, true, some "OK", none⟩] 2 1 :=
  ⟨⟨by decide, (by
     intro c
     show wellShaped (if c.col = 1 then (false, none, some "blocked")
       else (true, some "OK", none)) = true
     by_cases hc : c.col = 1
     · rw [if_pos hc]
       rfl
     · rw [if_neg hc]
       rfl)⟩,
   C6_failures_recorded [⟨0, 0, "a"⟩, ⟨0, 1, "b"⟩, ⟨0, 2, "c"⟩] 2
     (fun c : Cell => if c.col = 1 then (false, none, some "blocked")
       else (true, some "OK", none)) none (by decide) (by
     intro c
     show wellShaped (if c.col = 1 then (false, none, some "blocked")
       else (true, some "OK", none)) = true
     by_cases hc : c.col = 1
     · rw [if_pos hc]
       rfl
     · rw [if_neg hc]
       rfl),
   by decide⟩

/-- Counterexample to claim C8's delay-skipping part: cancelling mid-batch
(flag visible from read 2, i.e. at the second cell of the first batch of four
cells with batch_size 2) still runs the 0.5 s inter-batch sleep after the
"Completed batch 1 of 2" event — `await asyncio.sleep(0.5)` at line 148 is
unconditional — even though the run is cancelled and no further batch will
start. -/
theorem C8_counterexample :
    delaysSkippedWhenCancelled [⟨0, 0, "a"⟩, ⟨0, 1, "b"⟩, ⟨0, 2, "c"⟩, ⟨0, 3, "d"⟩] 2
        (fun _ => (true, some "OK", none)) (some 2) = false ∧
    run [⟨0, 0, "a"⟩, ⟨0, 1, "b"⟩, ⟨0, 2, "c"⟩, ⟨0, 3, "d"⟩] 2
        (fun _ => (true, some "OK", none)) (some 2) none =
      [Event.progress 0 0 0 4 (Status.batchStart 0 2),
       Event.progress 1 1 0 4 (Status.cellDone 0 2 1 2),
       Event.progress 1 1 0 4 (Status.batchDone 0 2),
       Event.progress 1 1 0 4 Status.cancelled,
       Event.complete [⟨0, 0, true, some "OK", none⟩] 1 0] := by
  constructor
  · decide
  · decide

theorem isBatchStartEv_final (p s e t : Nat) (c : Bool) :
    isBatchStartEv (Event.progress p s e t
      (if c then Status.cancelled else Status.finished)) = false := by
  cases c <;> rfl

theorem isBatchDoneEv_final (p s e t : Nat) (c : Bool) :
    isBatchDoneEv (Event.progress p s e t
      (if c then Status.cancelled else Status.finished)) = false := by
  cases c <;> rfl

theorem isBatchStartEv_complete (r : List CellResult) (s e : Nat) :
    isBatchStartEv (Event.complete r s e) = false := rfl

theorem isBatchDoneEv_complete (r : List CellResult) (s e : Nat) :
    isBatchDoneEv (Event.complete r s e) = false := rfl

/-- Claim C8 (amended): after each started batch — whether it ran to the end
or its inner loop was interrupted by flag-observed cancellation — a
"Completed batch i of n" progress event is emitted (one per started batch),
and the ~0.5 s inter-batch delay runs exactly once after every started batch,
unconditionally: it is not skipped when the run has been cancelled
(cancellation is only observed again at the top of the next batch). -/
theorem C8_batch_done_and_delay (cells : List Cell) (bs : Nat) (proc : Cell → CellOutcome)
    (cancel : Option Nat) (_hbs : 1 ≤ bs) :
    (eventsOf (tryBody cells bs proc cancel).1).countP isBatchStartEv
      = (eventsOf (tryBody cells bs proc cancel).1).countP isBatchDoneEv ∧
    (tryBody cells bs proc cancel).1.countP isBatchDelayAct
      = (eventsOf (tryBody cells bs proc cancel).1).countP isBatchDoneEv := by
  obtain ⟨hc1, hc2⟩ := batchLoop_counts proc cancel cells.length (chunks bs cells).length
    (chunks bs cells) 0 ⟨0, 0, 0, [], 0⟩
  rw [tryBody_acts, eventsOf_append]
  constructor
  · simp only [List.countP_append, eventsOf, List.filterMap_cons, List.filterMap_nil,
      List.countP_cons, List.countP_nil, isBatchStartEv_final, isBatchDoneEv_final,
      isBatchStartEv_complete, isBatchDoneEv_complete, Bool.false_eq_true, if_false]
    simpa using hc1
  · simp only [List.countP_append, List.countP_cons, List.countP_nil, eventsOf,
      List.filterMap_cons, List.filterMap_nil, isBatchStartEv_final, isBatchDoneEv_final,
      isBatchStartEv_complete, isBatchDoneEv_complete, isBatchDelayAct_emit,
      Bool.false_eq_true, if_false]
    simpa using hc2

/-- Witness for the amended C8 at the counterexample's cancelled run. -/
theorem C8_witness :
    1 ≤ 2 ∧
    ((eventsOf (tryBody [⟨0, 0, "a"⟩, ⟨0, 1, "b"⟩, ⟨0, 2, "c"⟩, ⟨0, 3, "d"⟩] 2
        (fun _ => (true, some "OK", none)) (some 2)).1).countP isBatchStartEv
      = (eventsOf (tryBody [⟨0, 0, "a"⟩, ⟨0, 1, "b"⟩, ⟨0, 2, "c"⟩, ⟨0, 3, "d"⟩] 2
        (fun _ => (true, some "OK", none)) (some 2)).1).countP isBatchDoneEv ∧
    (tryBody [⟨0, 0, "a"⟩, ⟨0, 1, "b"⟩, ⟨0, 2, "c"⟩, ⟨0, 3, "d"⟩] 2
        (fun _ => (true, some "OK", none)) (some 2)).1.countP isBatchDelayAct
      = (eventsOf (tryBody [⟨0, 0, "a"⟩, ⟨0, 1, "b"⟩, ⟨0, 2, "c"⟩, ⟨0, 3, "d"⟩] 2
        (fun _ => (true, some "OK", none)) (some 2)).1).countP isBatchDoneEv) :=
  ⟨by decide, C8_batch_done_and_delay [⟨0, 0, "a"⟩, ⟨0, 1, "b"⟩, ⟨0, 2, "c"⟩, ⟨0, 3, "d"⟩] 2
    (fun _ => (true, some "OK", none)) (some 2) (by decide)⟩

/-- Claim C10: every call to `process_batches` resets the cancellation flag to
False before scheduling the run, so a `cancel_processing` issued before the
call has no effect on the new run (the flag it set is cleared); only a
cancellation becoming visible after the run starts stops it — with no
post-start cancellation the uninterrupted run processes every cell. -/
theorem C10_reset_before_run (st : ProcFlags) (cells : List Cell) (bs : Nat)
    (proc : Cell → CellOutcome) (hbs : 1 ≤ bs) :
    (process_batches_reset st).processing_cancelled = false ∧
    (process_batches_reset (cancel_processing st)).processing_cancelled = false ∧
    (cancel_processing st).processing_cancelled = true ∧
    (tryBody cells bs proc none).2.processed = cells.length ∧
    (∀ r s e, finalEventOf (run cells bs proc none none) = Event.complete r s e →
      r.length = cells.length) := by
  obtain ⟨d, hd, hP, hS, hE, hA, hFull, hEarly⟩ :=
    batchLoop_top_spec cells bs proc none hbs
  have hdn : d = cells.length := hFull (Or.inr rfl)
  subst hdn
  refine ⟨rfl, rfl, rfl, ?_, ?_⟩
  · show (batchLoop proc none cells.length (chunks bs cells).length (chunks bs cells) 0
      ⟨0, 0, 0, [], 0⟩).2.processed = cells.length
    exact hP
  · have hfinalNone : finalEventOf (runEvents cells bs proc none) =
        Event.complete ((cells.take cells.length).map (mkCellResult proc))
          (countT proc (cells.take cells.length)) (countF proc (cells.take cells.length)) := by
      rw [runEvents, tryBody_acts, eventsOf_append]
      show ((eventsOf _) ++ [Event.progress _ _ _ _ _, Event.complete _ _ _]).getLastD _ = _
      rw [getLastD_append_two, hA, hS, hE]
    intro r s e hev
    rw [show run cells bs proc none none = runEvents cells bs proc none from rfl,
      hfinalNone] at hev
    obtain ⟨h1, _, _⟩ := Event.complete.inj hev.symm
    rw [h1]
    simp [List.take_length]

/-- Witness for C10 at a concrete previously-cancelled processor state. -/
theorem C10_witness :
    1 ≤ 2 ∧
    ((process_batches_reset ⟨true⟩).processing_cancelled = false ∧
     (process_batches_reset (cancel_processing ⟨true⟩)).processing_cancelled = false ∧
     (cancel_processing ⟨true⟩).processing_cancelled = true ∧
     (tryBody [⟨0, 0, "a"⟩, ⟨0, 1, "b"⟩, ⟨0, 2, "c"⟩] 2
       (fun _ => (true, some "OK", none)) none).2.processed = 3 ∧
     (∀ r s e, finalEventOf (run [⟨0, 0, "a"⟩, ⟨0, 1, "b"⟩, ⟨0, 2, "c"⟩] 2
         (fun _ => (true, some "OK", none)) none none) = Event.complete r s e →
       r.length = 3)) :=
  ⟨by decide, C10_reset_before_run ⟨true⟩ [⟨0, 0, "a"⟩, ⟨0, 1, "b"⟩, ⟨0, 2, "c"⟩] 2
    (fun _ => (true, some "OK", none)) (by decide)⟩

/-- Claim C5: `process_single_cell` never raises across the scheduler
boundary: for every environment (API error with any code, safety block,
invalid or empty response, text accessor raising, unexpected exception) the
call returns a well-shaped tuple — `(True, text, None)` on success and
`(False, None, errorText)` on every failure; and the scheduler-side wrapper
`_process_single_cell_async` passes well-shaped tuples through unchanged and
downgrades any exception to `(False, None, str(e))`, so no per-cell failure
escapes uncaught. -/
theorem C5_never_raises (maxRpm : Nat) (model : String) (env : GeminiAPIManager.ApiEnv)
    (st : GeminiAPIManager.RateState) (msg : String) (o : CellOutcome)
    (ho : wellShaped o = true) :
    wellShaped (GeminiAPIManager.process_single_cell maxRpm model env st).1 = true ∧
    wellShaped (process_single_cell_async (Except.error msg)) = true ∧
    process_single_cell_async (Except.ok o) = o ∧
    wellShaped (process_single_cell_async (Except.ok o)) = true ∧
    wellShaped (process_single_cell_async (Except.ok
      (GeminiAPIManager.process_single_cell maxRpm model env st).1)) = true := by
  have hmain : wellShaped (GeminiAPIManager.process_single_cell maxRpm model env st).1
      = true := by
    rw [GeminiAPIManager.process_single_cell]
    dsimp only
    repeat' split
    all_goals rfl
  refine ⟨hmain, rfl, rfl, ?_, ?_⟩
  · rw [show process_single_cell_async (Except.ok o) = o from rfl]
    exact ho
  · rw [show process_single_cell_async (Except.ok
      (GeminiAPIManager.process_single_cell maxRpm model env st).1)
        = (GeminiAPIManager.process_single_cell maxRpm model env st).1 from rfl]
    exact hmain

/-- Witness for C5 at a concrete blocked-response environment. -/
theorem C5_witness :
    wellShaped ((true : Bool), some "x", (none : Option String)) = true ∧
    (wellShaped (GeminiAPIManager.process_single_cell 60 "gemini-1.5-flash"
        ⟨true, true, 10, 11, .ok ⟨[⟨some 2⟩], .error "blocked"⟩⟩ ⟨0, 0⟩).1 = true ∧
      wellShaped (process_single_cell_async (Except.error "boom")) = true ∧
      process_single_cell_async (Except.ok ((true : Bool), some "x", (none : Option String)))
        = ((true : Bool), some "x", (none : Option String)) ∧
      wellShaped (process_single_cell_async (Except.ok
        ((true : Bool), some "x", (none : Option String)))) = true ∧
      wellShaped (process_single_cell_async (Except.ok
        (GeminiAPIManager.process_single_cell 60 "gemini-1.5-flash"
          ⟨true, true, 10, 11, .ok ⟨[⟨some 2⟩], .error "blocked"⟩⟩ ⟨0, 0⟩).1)) = true) :=
  ⟨by decide, C5_never_raises 60 "gemini-1.5-flash"
    ⟨true, true, 10, 11, .ok ⟨[⟨some 2⟩], .error "blocked"⟩⟩ ⟨0, 0⟩ "boom"
    ((true : Bool), some "x", (none : Option String)) (by decide)⟩

theorem foldl_increment_within (t0 : ℚ) :
    ∀ (ts : List ℚ) (c : Nat), (∀ t ∈ ts, t - t0 ≤ 60) →
    ts.foldl (fun s t => GeminiAPIManager.increment_request_count t s) ⟨c, t0⟩
      = ⟨c + ts.length, t0⟩ := by
  intro ts
  induction ts with
  | nil =>
    intro c _
    simp
  | cons t ts ih =>
    intro c hwin
    simp only [List.foldl_cons]
    have hstep : GeminiAPIManager.increment_request_count t ⟨c, t0⟩
        = (⟨c + 1, t0⟩ : GeminiAPIManager.RateState) := by
      rw [GeminiAPIManager.increment_request_count]
      rw [if_neg (by
        have := hwin t (by simp)
        simp only [not_lt]
        exact le_trans (by linarith) (le_refl _))]
    rw [hstep, ih (c + 1) (fun t2 ht2 => hwin t2 (by simp [ht2]))]
    simp only [List.length_cons]
    congr 1
    omega

/-- Claim C7: starting from a fresh window at t0, after M = max_per_minute
`record()` calls at times within the 60-second window the counter is M and
the window start is unchanged; a check while the window has not yet exceeded
60 s then returns false without side effects, and a check made strictly more
than 60 seconds after the window start (e.g. t = t0 + 61) resets the counter
to 0, moves the window start to now, and returns true. -/
theorem C7_rate_limiter (M : Nat) (t0 : ℚ) (ts : List ℚ)
    (hwin : ∀ t ∈ ts, t - t0 ≤ 60) (hlen : ts.length = M) :
    ts.foldl (fun s t => GeminiAPIManager.increment_request_count t s) ⟨0, t0⟩
      = ⟨M, t0⟩ ∧
    (∀ t : ℚ, t - t0 ≤ 60 →
      GeminiAPIManager.check_rate_limit M t ⟨M, t0⟩ = (false, ⟨M, t0⟩)) ∧
    (∀ t : ℚ, 60 < t - t0 →
      GeminiAPIManager.check_rate_limit M t ⟨M, t0⟩ = (true, ⟨0, t⟩)) := by
  refine ⟨?_, ?_, ?_⟩
  · rw [foldl_increment_within t0 ts 0 hwin]
    simp [hlen]
  · intro t ht
    rw [GeminiAPIManager.check_rate_limit]
    rw [if_neg (by simp only [not_lt]; exact ht)]
    simp
  · intro t ht
    rw [GeminiAPIManager.check_rate_limit]
    rw [if_pos ht]

/-- Witness for C7: two record() calls at t = 10 and t = 20 in a window
started at 0 with max_per_minute = 2; a check at t = 30 denies, a check at
t = 61 resets and allows. -/
theorem C7_witness :
    ((∀ t ∈ ([10, 20] : List ℚ), t - 0 ≤ 60) ∧ ([10, 20] : List ℚ).length = 2) ∧
    (([10, 20] : List ℚ).foldl
        (fun s t => GeminiAPIManager.increment_request_count t s) ⟨0, 0⟩ = ⟨2, 0⟩ ∧
      (∀ t : ℚ, t - 0 ≤ 60 →
        GeminiAPIManager.check_rate_limit 2 t ⟨2, 0⟩ = (false, ⟨2, 0⟩)) ∧
      (∀ t : ℚ, 60 < t - 0 →
        GeminiAPIManager.check_rate_limit 2 t ⟨2, 0⟩ = (true, ⟨0, t⟩))) ∧
    GeminiAPIManager.check_rate_limit 2 30 ⟨2, 0⟩ = (false, ⟨2, 0⟩) ∧
    GeminiAPIManager.check_rate_limit 2 61 ⟨2, 0⟩ = (true, ⟨0, 61⟩) :=
  ⟨⟨by intro t ht; fin_cases ht <;> norm_num, by decide⟩,
   C7_rate_limiter 2 0 [10, 20] (by intro t ht; fin_cases ht <;> norm_num) (by decide),
   by norm_num [GeminiAPIManager.check_rate_limit],
   by norm_num [GeminiAPIManager.check_rate_limit]⟩

/-- Claim C9: when the rate limit denies (window not expired and
request_count ≥ max_requests_per_minute) the call returns
`(False, None, "Rate limit exceeded. Please try again later.")` without
invoking `generate_content` and without touching `request_count` or
`request_start_time`; and the counter is incremented (via
`_increment_request_count`) only when a `generate_content` call returns —
when the call raises, the state stays as the check left it. -/
theorem C9_rate_limit_denial (maxRpm : Nat) (model : String)
    (env : GeminiAPIManager.ApiEnv) (st : GeminiAPIManager.RateState)
    (hclient : ¬(env.clientReady = false ∧ env.initOk = false))
    (hwin : ¬(60 < env.checkTime - st.request_start_time))
    (hcount : maxRpm ≤ st.request_count) :
    GeminiAPIManager.process_single_cell maxRpm model env st
      = ((false, none, some "Rate limit exceeded. Please try again later."), st, false) ∧
    (∀ (env2 : GeminiAPIManager.ApiEnv) (st2 : GeminiAPIManager.RateState) resp,
      env2.callResult = .ok resp →
      ¬(env2.clientReady = false ∧ env2.initOk = false) →
      (GeminiAPIManager.check_rate_limit maxRpm env2.checkTime st2).1 = true →
      (GeminiAPIManager.process_single_cell maxRpm model env2 st2).2.1
        = GeminiAPIManager.increment_request_count env2.incTime
            (GeminiAPIManager.check_rate_limit maxRpm env2.checkTime st2).2) ∧
    (∀ (env2 : GeminiAPIManager.ApiEnv) (st2 : GeminiAPIManager.RateState),
      (∀ resp, env2.callResult ≠ .ok resp) →
      (GeminiAPIManager.process_single_cell maxRpm model env2 st2).2.1 = st2 ∨
      (GeminiAPIManager.process_single_cell maxRpm model env2 st2).2.1
        = (GeminiAPIManager.check_rate_limit maxRpm env2.checkTime st2).2) := by
  refine ⟨?_, ?_, ?_⟩
  · have hcheck : GeminiAPIManager.check_rate_limit maxRpm env.checkTime st = (false, st) := by
      rw [GeminiAPIManager.check_rate_limit, if_neg hwin]
      simp only [Prod.mk.injEq, decide_eq_false_iff_not, not_lt]
      exact ⟨hcount, trivial⟩
    rw [GeminiAPIManager.process_single_cell, if_neg hclient]
    simp only [hcheck]
    rfl
  · intro env2 st2 resp hok hcl hallow
    rw [GeminiAPIManager.process_single_cell, if_neg hcl]
    simp only [hallow, Bool.true_eq_false, if_false, hok]
    repeat' split
    all_goals rfl
  · intro env2 st2 hraise
    rw [GeminiAPIManager.process_single_cell]
    split
    · left
      rfl
    · by_cases hallow : (GeminiAPIManager.check_rate_limit maxRpm env2.checkTime st2).1 = false
      · right
        show (if (GeminiAPIManager.check_rate_limit maxRpm env2.checkTime st2).1 = false
          then _ else _ : CellOutcome × GeminiAPIManager.RateState × Bool).2.1 = _
        rw [if_pos hallow]
      · have hallow2 : (GeminiAPIManager.check_rate_limit maxRpm env2.checkTime st2).1
            = false → False := hallow
        right
        show (if (GeminiAPIManager.check_rate_limit maxRpm env2.checkTime st2).1 = false
          then _ else _ : CellOutcome × GeminiAPIManager.RateState × Bool).2.1 = _
        rw [if_neg hallow]
        cases hres : env2.callResult with
        | ok resp => exact absurd hres (hraise resp)
        | googleError code msg =>
          simp only [hres]
        | otherError msg =>
          simp only [hres]

/-- Witness for C9 at a concrete denied state (count 60 of 60, window not
expired) and a concrete raising call. -/
theorem C9_witness :
    (¬((⟨true, true, 30, 31, .googleError (some 429) "quota"⟩ :
        GeminiAPIManager.ApiEnv).clientReady = false ∧
        (⟨true, true, 30, 31, .googleError (some 429) "quota"⟩ :
        GeminiAPIManager.ApiEnv).initOk = false) ∧
      ¬(60 < (30 : ℚ) - 0) ∧ 60 ≤ 60) ∧
    GeminiAPIManager.process_single_cell 60 "gemini-1.5-flash"
        ⟨true, true, 30, 31, .googleError (some 429) "quota"⟩ ⟨60, 0⟩
      = ((false, none, some "Rate limit exceeded. Please try again later."), ⟨60, 0⟩, false) :=
  ⟨⟨by decide, by norm_num, by decide⟩,
   (C9_rate_limit_denial 60 "gemini-1.5-flash"
     ⟨true, true, 30, 31, .googleError (some 429) "quota"⟩ ⟨60, 0⟩
     (by decide) (by norm_num) (by decide)).1⟩
